import Mathlib

/-!
Verification development for the magnetic-contract matching engine of the
vapor repository (package `match`: `engine.go` and `fee_strategy.go`), with
the order table and order construction modelled from the specification
(their sources are not part of the excerpt).

Machine integers are modelled as `Nat`/`Int` with explicit wrapping where the
Go code can overflow (`int64` casts and the `int64` multiply in
`calcRequestAmount`, `uint64` casts of possibly negative fee values).
Go's `float64` arithmetic (`math.Ceil(float64(x) * float64(y) / float64(z))`)
is modelled by an executable round-to-nearest-even function `roundF` with 53
bits of precision and unbounded exponent; every value reached by the code in
scope lies far below the overflow/subnormal range of binary64, so the model
agrees with IEEE-754 double arithmetic there.
-/

set_option allowUnsafeReducibility true

/- Batteries marks the `Rat` field operations `@[irreducible]`, which stops
`decide` from evaluating concrete rational arithmetic; restore the default
reducibility so that witnesses and counterexamples can be checked by
evaluation.  (Kernel checking is unaffected by reducibility attributes.) -/
attribute [semireducible] Rat.add Rat.mul Rat.inv Rat.sub Rat.ofScientific

set_option maxRecDepth 100000

namespace Vapor

/-! ## Machine integer helpers -/

/-- Reinterpret a `uint64` value as Go's `int64(x)` (two's complement). -/
def i64 (n : Nat) : Int := Int.bmod (n : Int) (2 ^ 64)

/-- Go's `uint64(i)` conversion of an `int64` value (two's complement). -/
def u64ofInt (i : Int) : Nat := (i.emod (2 ^ 64)).toNat

/-- Go `int64` multiplication, which wraps on overflow. -/
def wrapMul64 (x y : Int) : Int := Int.bmod (x * y) (2 ^ 64)

/-- Go `uint64` addition (wraps at `2^64`). -/
def u64add (x y : Nat) : Nat := (x + y) % 2 ^ 64

/-- Go `uint64` subtraction (wraps at `2^64`; operands are `uint64` values). -/
def u64sub (x y : Nat) : Nat := (x + 2 ^ 64 - y) % 2 ^ 64

/-! ## Executable binary64 rounding model

`roundF q` is the IEEE-754 binary64 value nearest to the rational `q`
(round to nearest, ties to even), ignoring exponent overflow and subnormals:
all quantities manipulated by the code in scope are either `0` or have
magnitude between `2 ^ (-100)` and `2 ^ 190`, well inside binary64's normal
range, so the model is exact there. -/

/-- Fuel-driven base-2 logarithm on `Nat` (`⌊log₂ n⌋` for `1 ≤ n < 2 ^ fuel`). -/
def log2fuel : Nat → Nat → Nat
  | 0, _ => 0
  | fuel + 1, n => if n ≤ 1 then 0 else log2fuel fuel (n / 2) + 1

/-- Binary exponent `⌊log₂ q⌋` of a positive rational (valid for
`2 ^ (-250) ≤ q < 2 ^ 200`). -/
def floorLog2 (q : ℚ) : Int := (log2fuel 500 (⌊q * 2 ^ 300⌋).toNat : Int) - 300

/-- Round a rational to the nearest integer, ties to even. -/
def rhe (s : ℚ) : Int :=
  if s - ⌊s⌋ < 1 / 2 then ⌊s⌋
  else if 1 / 2 < s - ⌊s⌋ then ⌊s⌋ + 1
  else if ⌊s⌋ % 2 = 0 then ⌊s⌋ else ⌊s⌋ + 1

/-- Round a positive rational to 53 significant bits, ties to even. -/
def roundPos (q : ℚ) : ℚ :=
  let e := floorLog2 q
  (rhe (q * 2 ^ (52 - e)) : ℚ) * 2 ^ (e - 52)

/-- Round a rational to the nearest binary64 value (unbounded exponent). -/
def roundF (q : ℚ) : ℚ :=
  if q = 0 then 0 else if 0 < q then roundPos q else -roundPos (-q)

/-- Go's `float64(n)` for a `uint64` value. -/
def f64 (n : Nat) : ℚ := roundF n

/-- Go's `float64(i)` for an `int64` value. -/
def f64i (i : Int) : ℚ := roundF i

/-- binary64 multiplication: round the exact product. -/
def fmul (x y : ℚ) : ℚ := roundF (x * y)

/-- binary64 division: round the exact quotient (divisors in scope are
nonzero; Go would produce an infinity for a zero divisor). -/
def fdiv (x y : ℚ) : ℚ := roundF (x / y)

/-! ## Script model (`segwit` / `vmutil` adapter)

A control program is either a well-formed P2WMC (magnetic contract) script,
which decodes to its contract arguments, or some other byte string,
represented by an opaque identifier.  This mirrors the codec contract:
`DecodeP2WMCProgram` succeeds exactly on P2WMC scripts and the encoding of
distinct argument tuples yields distinct byte strings. -/

inductive Program where
  | p2wmc (requestedAsset : Nat) (ratioNumerator ratioDenominator : Int)
      (sellerProgram : Program)
  | raw (id : Nat)
deriving DecidableEq, Repr

/-- Contract arguments of a magnetic-contract locking script (the signature
key `SellerKey` is only used by the cancel clause and is not modelled). -/
structure MagneticContractArgs where
  requestedAsset : Nat
  ratioNumerator : Int
  ratioDenominator : Int
  sellerProgram : Program
deriving DecidableEq, Repr

def DecodeP2WMCProgram : Program → Option MagneticContractArgs
  | .p2wmc a num denom seller => some ⟨a, num, denom, seller⟩
  | .raw _ => none

def IsP2WMCScript (p : Program) : Bool := (DecodeP2WMCProgram p).isSome

/-! ## Transaction data model (`protocol/bc/types` fragment) -/

structure TxInput where
  assetID : Nat
  amount : Nat
  sourceID : Nat
  sourcePos : Nat
  controlProgram : Program
  arguments : List Int
deriving DecidableEq, Repr

structure TxOutput where
  assetID : Nat
  amount : Nat
  controlProgram : Program
deriving DecidableEq, Repr

def NewSpendInput (arguments : List Int) (sourceID assetID amount sourcePos : Nat)
    (controlProgram : Program) : TxInput :=
  ⟨assetID, amount, sourceID, sourcePos, controlProgram, arguments⟩

def NewIntraChainOutput (assetID amount : Nat) (controlProgram : Program) : TxOutput :=
  ⟨assetID, amount, controlProgram⟩

structure TxData where
  version : Nat
  inputs : List TxInput
  outputs : List TxOutput
  serializedSize : Nat
deriving DecidableEq, Repr

/-- Stand-in for the length of `TxData.MarshalText`: only the length of the
serialization is observable in the code in scope (it becomes
`SerializedSize`), and no claim depends on its value. -/
def serializedLen (txData : TxData) : Nat :=
  txData.inputs.length + txData.outputs.length + 1

/-! ## Orders and the order table

`common.Order`, `common.TradePair` and `match.OrderTable` are not part of
the excerpt.  Modelled from the spec: an order carries the offered UTXO, the
directional asset pair and the derived `rate = ratioDenominator /
ratioNumerator` used for ordering and crossing checks; the table maps each
trade pair to its resting orders, best (lowest) rate first; `AddOrder`
fails exactly when the order's locking script cannot be decoded into the
expected contract shape. -/

structure MovUtxo where
  sourceID : Nat
  sourcePos : Nat
  amount : Nat
  controlProgram : Program
deriving DecidableEq, Repr

structure Order where
  fromAssetID : Nat
  toAssetID : Nat
  utxo : MovUtxo
  rate : ℚ
deriving DecidableEq, Repr

structure TradePair where
  fromAssetID : Nat
  toAssetID : Nat
deriving DecidableEq, Repr

abbrev OrderTable := TradePair → List Order

def orderTradePair (o : Order) : TradePair := ⟨o.fromAssetID, o.toAssetID⟩

def PeekOrder (t : OrderTable) (p : TradePair) : Option Order := (t p).head?

def PopOrder (t : OrderTable) (p : TradePair) : OrderTable :=
  fun q => if q = p then (t p).tail else t q

/-- Insert an order into a best-rate-first list (stable: equal rates keep
insertion order). -/
def insertOrder (o : Order) : List Order → List Order
  | [] => [o]
  | x :: xs => if o.rate < x.rate then o :: x :: xs else x :: insertOrder o xs

def AddOrder (o : Order) (t : OrderTable) : Except String OrderTable :=
  match DecodeP2WMCProgram o.utxo.controlProgram with
  | none => .error "order's locking script is not P2WMC script"
  | some _ => .ok fun q =>
      if q = orderTradePair o then insertOrder o (t q) else t q

/-- Modelled from the spec: `common.NewOrderFromOutput` builds the resting
order corresponding to output `idx` of `tx`, failing when the output's
locking script does not decode; the derived rate is
`ratioDenominator / ratioNumerator`. -/
def NewOrderFromOutput (tx : TxData) (idx : Nat) : Except String Order :=
  match tx.outputs[idx]? with
  | none => .error "output index out of range"
  | some out =>
    match DecodeP2WMCProgram out.controlProgram with
    | none => .error "order's locking script is not P2WMC script"
    | some contractArgs =>
      .ok ⟨out.assetID, contractArgs.requestedAsset,
        ⟨0, idx, out.amount, out.controlProgram⟩,
        (contractArgs.ratioDenominator : ℚ) / (contractArgs.ratioNumerator : ℚ)⟩

/-! ## Pure amount computations (`engine.go`) -/

/-- `maxFeeRate = 0.05` is an untyped decimal constant used in `float64`
context, hence denotes the binary64 value nearest to `1/20`. -/
def maxFeeRate : ℚ := roundF (1 / 20)

/-- `uint64(int64(fromAmount) * contractArg.RatioNumerator / contractArg.RatioDenominator)`;
the `int64` multiplication wraps on overflow, the quotient truncates toward
zero (Go division; a zero denominator would panic in Go). -/
def calcRequestAmount (fromAmount : Nat) (contractArg : MagneticContractArgs) : Nat :=
  u64ofInt (Int.tdiv (wrapMul64 (i64 fromAmount) contractArg.ratioNumerator)
    contractArg.ratioDenominator)

/-- `uint64(math.Ceil(float64(receiveAmount) * float64(RatioDenominator) / float64(RatioNumerator)))`. -/
def CalcShouldPayAmount (receiveAmount : Nat) (contractArg : MagneticContractArgs) : Nat :=
  u64ofInt ⌈fdiv (fmul (f64 receiveAmount) (f64i contractArg.ratioDenominator))
    (f64i contractArg.ratioNumerator)⌉

/-- `int64(math.Ceil(float64(shouldPayAmount) * maxFeeRate))`; the ceiling is
below `2 ^ 63` for every `uint64` argument, so the `int64` conversion is
exact. -/
def CalcMaxFeeAmount (shouldPayAmount : Nat) : Int :=
  ⌈fmul (f64 shouldPayAmount) maxFeeRate⌉

def getOppositeIndex (size selfIdx : Nat) : Nat :=
  if size - 1 ≤ selfIdx then 0 else selfIdx + 1

/-! ## Fee computation over a matched transaction (`CalcFeeFromMatchedTx`)

The Go asset map is modelled as a function together with its key list (the
distinct input asset identifiers); the key list drives the final iteration.
Map iteration order, which Go leaves unspecified, is fixed to key order. -/

structure feeAmount where
  maxFeeAmount : Int
  payableFeeAmount : Int
deriving DecidableEq, Repr

/-- One Go map assignment `m[k] = v` on an association list. -/
def upsert (k : Program) (v : TxOutput) : List (Program × TxOutput) → List (Program × TxOutput)
  | [] => [(k, v)]
  | (k1, v1) :: rest => if k1 = k then (k, v) :: rest else (k1, v1) :: upsert k v rest

/-- First pass over the outputs: deduct each re-order (P2WMC) output from its
asset's payable fee and record every other output in the receive-output map,
keyed by its control program (later outputs overwrite earlier ones, as for a
Go map). -/
def outputPass : List TxOutput → (Nat → Int) → List (Program × TxOutput) →
    (Nat → Int) × List (Program × TxOutput)
  | [], pay, recv => (pay, recv)
  | out :: rest, pay, recv =>
    if IsP2WMCScript out.controlProgram then
      outputPass rest
        (fun a => if a = out.assetID then pay a - i64 out.amount else pay a) recv
    else
      outputPass rest pay (upsert out.controlProgram out recv)

/-- Second pass, over the inputs: add each input amount to its asset's
payable fee, deduct the matching receive output (an error if there is none)
and record the asset's maximum fee. -/
def inputPass (recv : List (Program × TxOutput)) :
    List TxInput → (Nat → Int) → (Nat → Int) → Except String ((Nat → Int) × (Nat → Int))
  | [], pay, mx => .ok (pay, mx)
  | inp :: rest, pay, mx =>
    match DecodeP2WMCProgram inp.controlProgram with
    | none => .error "not P2WMC script"
    | some contractArgs =>
      let pay1 := fun a => if a = inp.assetID then pay a + i64 inp.amount else pay a
      match recv.lookup contractArgs.sellerProgram with
      | none => .error "the input of matched tx has no receive output"
      | some receiveOutput =>
        inputPass recv rest
          (fun a => if a = receiveOutput.assetID then pay1 a - i64 receiveOutput.amount
            else pay1 a)
          (fun a => if a = inp.assetID then
              CalcMaxFeeAmount (CalcShouldPayAmount receiveOutput.amount contractArgs)
            else mx a)

def CalcFeeFromMatchedTx (txData : TxData) : Except String (List (Nat × feeAmount)) :=
  let keys := (txData.inputs.map (·.assetID)).dedup
  let pr := outputPass txData.outputs (fun _ => 0) []
  match inputPass pr.2 txData.inputs pr.1 (fun _ => 0) with
  | .error msg => .error msg
  | .ok pm =>
    .ok ((keys.filter fun a => !(pm.1 a == 0)).map fun a => (a, ⟨pm.2 a, pm.1 a⟩))

/-! ## Fee outputs (`addMatchTxFeeOutput`) -/

/-- The remainder-redistribution loop: while some remainder is left, walk the
inputs, paying `averageAmount` to each input's seller program and the whole
remaining amount to the last input's seller program. -/
def redistLoop (feeAssetID : Nat) (averageAmount : Int) :
    List TxInput → Int → Except String (List TxOutput)
  | [], _ => .ok []
  | inp :: rest, reminder =>
    if reminder ≤ 0 then .ok []
    else
      match DecodeP2WMCProgram inp.controlProgram with
      | none => .error "not P2WMC script"
      | some contractArgs =>
        match redistLoop feeAssetID averageAmount rest (reminder - averageAmount) with
        | .error msg => .error msg
        | .ok outs =>
          .ok (NewIntraChainOutput feeAssetID
              (u64ofInt (if rest.isEmpty then reminder else averageAmount))
              contractArgs.sellerProgram :: outs)

/-- The outputs appended for one entry of the fee map: the (capped) protocol
fee output to the node program followed by the remainder redistribution. -/
def feeChunk (nodeProgram : Program) (inputs : List TxInput) (entry : Nat × feeAmount) :
    Except String (List TxOutput) :=
  let feeAmt := if entry.2.maxFeeAmount < entry.2.payableFeeAmount
    then entry.2.maxFeeAmount else entry.2.payableFeeAmount
  let reminder := if entry.2.maxFeeAmount < entry.2.payableFeeAmount
    then entry.2.payableFeeAmount - entry.2.maxFeeAmount else 0
  let avg0 := Int.tdiv reminder (inputs.length : Int)
  let averageAmount := if avg0 = 0 then 1 else avg0
  match redistLoop entry.1 averageAmount inputs reminder with
  | .error msg => .error msg
  | .ok outs =>
    .ok (NewIntraChainOutput entry.1 (u64ofInt feeAmt) nodeProgram :: outs)

def addMatchTxFeeOutput (nodeProgram : Program) (txData : TxData) : Except String TxData :=
  match CalcFeeFromMatchedTx txData with
  | .error msg => .error msg
  | .ok entries =>
    match entries.mapM (feeChunk nodeProgram txData.inputs) with
    | .error msg => .error msg
    | .ok chunks => .ok ⟨txData.version, txData.inputs,
        txData.outputs ++ chunks.flatten, txData.serializedSize⟩

/-! ## Transaction assembly (`buildMatchTx` and friends) -/

/-- Clause selectors of the magnetic contract (modelled from the contract
package's published interface: partial trade = 0, full trade = 1). -/
def PartialTradeClauseSelector : Int := 0

def FullTradeClauseSelector : Int := 1

/-- `setMatchTxArguments`: the unlocking witness for one spend input
(`vm.Int64Bytes` values, here kept as the integers themselves). -/
def setMatchTxArguments (isPartialTrade : Bool) (position : Nat) (receiveAmounts : Nat) :
    List Int :=
  if isPartialTrade then
    [i64 receiveAmounts, (position : Int), PartialTradeClauseSelector]
  else
    [(position : Int), FullTradeClauseSelector]

/-- One leg of the match: the spend input (with its witness arguments) plus
the receive output and, on a partial trade, the continuation (re-order)
output.  Combines the input construction of `buildMatchTx` with
`addMatchTxOutput`; `position` is the number of outputs built so far. -/
def buildLeg (o opp : Order) (position : Nat) : Except String (TxInput × List TxOutput) :=
  match DecodeP2WMCProgram o.utxo.controlProgram with
  | none => .error "not P2WMC script"
  | some contractArgs =>
    let requestAmount := calcRequestAmount o.utxo.amount contractArgs
    let receiveAmount := min requestAmount opp.utxo.amount
    let shouldPayAmount := CalcShouldPayAmount receiveAmount contractArgs
    let isPartialTrade := decide (shouldPayAmount < o.utxo.amount)
    .ok (NewSpendInput (setMatchTxArguments isPartialTrade position receiveAmount)
        o.utxo.sourceID o.fromAssetID o.utxo.amount o.utxo.sourcePos o.utxo.controlProgram,
      NewIntraChainOutput o.toAssetID receiveAmount contractArgs.sellerProgram ::
        (if isPartialTrade then
          [NewIntraChainOutput o.fromAssetID (u64sub o.utxo.amount shouldPayAmount)
            o.utxo.controlProgram]
        else []))

/-- The loop of `buildMatchTx` over the legs, each leg paired with its
opposite order (`orders.zip (orders.rotate 1)` realizes
`orders[getOppositeIndex(len(orders), i)]`). -/
def buildLegs : List (Order × Order) → Nat → Except String (List TxInput × List TxOutput)
  | [], _ => .ok ([], [])
  | (o, opp) :: rest, position =>
    match buildLeg o opp position with
    | .error msg => .error msg
    | .ok (inp, outs) =>
      match buildLegs rest (position + outs.length) with
      | .error msg => .error msg
      | .ok (inps, more) => .ok (inp :: inps, outs ++ more)

def buildMatchTx (nodeProgram : Program) (orders : List Order) : Except String TxData :=
  match buildLegs (orders.zip (orders.rotate 1)) 0 with
  | .error msg => .error msg
  | .ok (inputs, outputs) =>
    match addMatchTxFeeOutput nodeProgram ⟨1, inputs, outputs, 0⟩ with
    | .error msg => .error msg
    | .ok txData =>
      .ok ⟨txData.version, txData.inputs, txData.outputs, serializedLen txData⟩

/-! ## The matching engine -/

structure Engine where
  orderTable : OrderTable
  nodeProgram : Program

def validateTradePairs (tradePairs : List TradePair) : Except String Unit :=
  if tradePairs.length < 2 then .error "size of trade pairs at least 2"
  else if (tradePairs.zip (tradePairs.rotate 1)).all
      (fun pr => pr.1.toAssetID == pr.2.fromAssetID) then .ok ()
  else .error "specified trade pairs is invalid"

def canNotBeMatched (order oppositeOrder : Order) : Bool :=
  decide (1 / order.rate < oppositeOrder.rate)

def peekOrders (t : OrderTable) : List TradePair → Option (List Order)
  | [] => some []
  | p :: rest =>
    match PeekOrder t p with
    | none => none
    | some o =>
      match peekOrders t rest with
      | none => none
      | some os => some (o :: os)

def HasMatchedTx (e : Engine) (tradePairs : List TradePair) : Bool :=
  match validateTradePairs tradePairs with
  | .error _ => false
  | .ok _ =>
    match peekOrders e.orderTable tradePairs with
    | none => false
    | some orders =>
      if orders.isEmpty then false
      else (orders.zip (orders.rotate 1)).all fun pr => !canNotBeMatched pr.1 pr.2

/-- The loop of `addPartialTradeOrder` over the outputs, with partially
applied table updates preserved on error (the Go loop mutates the shared
table in place). -/
def addPartialLoop (tx : TxData) : List TxOutput → Nat → OrderTable →
    Except String Unit × OrderTable
  | [], _, t => (.ok (), t)
  | out :: rest, idx, t =>
    if IsP2WMCScript out.controlProgram then
      match NewOrderFromOutput tx idx with
      | .error msg => (.error msg, t)
      | .ok order =>
        match AddOrder order t with
        | .error msg => (.error msg, t)
        | .ok t1 => addPartialLoop tx rest (idx + 1) t1
    else addPartialLoop tx rest (idx + 1) t

def addPartialTradeOrder (tx : TxData) (t : OrderTable) : Except String Unit × OrderTable :=
  addPartialLoop tx tx.outputs 0 t

/-- `Engine.NextMatchedTx`; the returned table is the state of
`e.orderTable` after the call (the Go method mutates it in place). -/
def NextMatchedTx (e : Engine) (tradePairs : List TradePair) :
    Except String TxData × OrderTable :=
  match validateTradePairs tradePairs with
  | .error msg => (.error msg, e.orderTable)
  | .ok _ =>
    match peekOrders e.orderTable tradePairs with
    | none => (.error "no order for the specified trade pair in the order table", e.orderTable)
    | some orders =>
      if orders.isEmpty then
        (.error "no order for the specified trade pair in the order table", e.orderTable)
      else
        match buildMatchTx e.nodeProgram orders with
        | .error msg => (.error msg, e.orderTable)
        | .ok tx =>
          let t1 := tradePairs.foldl PopOrder e.orderTable
          match addPartialTradeOrder tx t1 with
          | (.error msg, t2) => (.error msg, t2)
          | (.ok _, t2) => (.ok tx, t2)

/-! ## The default fee strategy (`fee_strategy.go`) -/

structure AssetAmount where
  assetID : Nat
  amount : Nat
deriving DecidableEq, Repr

namespace DefaultFeeStrategy

/-- `uint64(math.Ceil(float64(amount) * float64(feeRate) / 1E4))` with
`feeRate` the maker (0) or taker (3) rate in units of 10000. -/
def calcFeeAmount (amount : Nat) (isMaker : Bool) : Nat :=
  u64ofInt ⌈fdiv (fmul (f64 amount) (f64i (if isMaker then 0 else 3))) 10000⌉

/-- The inner loop of `Allocate` for a taker leg: each price differential of
the leg's asset is reduced by its own taker fee, which is accumulated into
the leg's fee entry.  Returns the updated differentials and the total skim. -/
def skim (assetID : Nat) : List AssetAmount → List AssetAmount × Nat
  | [] => ([], 0)
  | priceDiff :: rest =>
    let pr := skim assetID rest
    if priceDiff.assetID = assetID then
      let fee := calcFeeAmount priceDiff.amount false
      (⟨priceDiff.assetID, u64sub priceDiff.amount fee⟩ :: pr.1, u64add fee pr.2)
    else (priceDiff :: pr.1, pr.2)

/-- The loop of `Allocate` over the legs (receive amount paired with the
maker flag), threading the mutable `priceDiffs` slice through. -/
def allocateLoop : List (AssetAmount × Bool) → List AssetAmount →
    (List AssetAmount × List AssetAmount) × List AssetAmount
  | [], priceDiffs => (([], []), priceDiffs)
  | (receiveAmount, isMaker) :: rest, priceDiffs =>
    let fee := calcFeeAmount receiveAmount.amount isMaker
    let pr := if isMaker then (priceDiffs, 0) else skim receiveAmount.assetID priceDiffs
    let tail := allocateLoop rest pr.1
    ((⟨receiveAmount.assetID, u64sub receiveAmount.amount fee⟩ :: tail.1.1,
      ⟨receiveAmount.assetID, u64add fee pr.2⟩ :: tail.1.2), tail.2)

/-- `DefaultFeeStrategy.Allocate`; the second component is the final state of
the caller-visible `priceDiffs` slice, which the Go method mutates. -/
def Allocate (receiveAmounts priceDiffs : List AssetAmount) (isMakers : List Bool) :
    (List AssetAmount × List AssetAmount) × List AssetAmount :=
  allocateLoop (receiveAmounts.zip isMakers) priceDiffs

/-- Go map lookup with the `uint64` zero value for missing keys. -/
def lookupFee (feeAmounts : List (Nat × Nat)) (assetID : Nat) : Nat :=
  (feeAmounts.lookup assetID).getD 0

/-- `DefaultFeeStrategy.Validate`. -/
def Validate (receiveAmounts : List AssetAmount) (feeAmounts : List (Nat × Nat)) :
    Except String Unit :=
  match receiveAmounts with
  | [] => .ok ()
  | receiveAmount :: rest =>
    if calcFeeAmount receiveAmount.amount false < lookupFee feeAmounts receiveAmount.assetID
    then .error "amount of fee is invalid"
    else Validate rest feeAmounts

end DefaultFeeStrategy

/-! ## Lemmas: `addPartialTradeOrder` cannot fail on its own transaction

Every output the loop processes is the output at its own index, P2WMC
outputs decode by definition of `IsP2WMCScript`, and `AddOrder` (per the
spec) fails only on undecodable scripts, so the loop always succeeds. -/

theorem addPartialLoop_ok (tx : TxData) (outs : List TxOutput) :
    ∀ (idx : Nat) (t : OrderTable), (∀ j, outs[j]? = tx.outputs[idx + j]?) →
    (addPartialLoop tx outs idx t).1 = .ok () := by
  induction outs with
  | nil => intro idx t _; rfl
  | cons out rest ih =>
    intro idx t h
    have hidx : tx.outputs[idx]? = some out := by
      have h0 := h 0
      simpa using h0.symm
    have hrest : ∀ j, rest[j]? = tx.outputs[idx + 1 + j]? := by
      intro j
      have hj := h (j + 1)
      simpa [Nat.add_assoc, Nat.add_comm 1 j] using hj
    by_cases hp : IsP2WMCScript out.controlProgram
    · obtain ⟨args, hargs⟩ : ∃ args, DecodeP2WMCProgram out.controlProgram = some args := by
        cases hd : DecodeP2WMCProgram out.controlProgram with
        | none => simp [IsP2WMCScript, hd] at hp
        | some a => exact ⟨a, rfl⟩
      simp only [addPartialLoop, hp, if_true, NewOrderFromOutput, hidx, hargs,
        AddOrder]
      exact ih (idx + 1) _ hrest
    · simp only [addPartialLoop, hp, if_false]
      exact ih (idx + 1) t hrest

theorem addPartialTradeOrder_ok (tx : TxData) (t : OrderTable) :
    (addPartialTradeOrder tx t).1 = .ok () := by
  refine addPartialLoop_ok tx tx.outputs 0 t ?_
  intro j
  simp

/-- C3: whenever `Engine.NextMatchedTx` returns an error — invalid ring,
missing order, script decode failure, arithmetic failure, or failure while
inserting continuation orders — the order table is returned exactly as it
was before the call: every failing path precedes the `PopOrder`/`AddOrder`
mutations (and, with `AddOrder` modelled from the spec as failing only on an
undecodable script, the insertion pass never fails on the engine's own
transaction). -/
theorem nextMatchedTx_error_table_unchanged (e : Engine) (tradePairs : List TradePair)
    (msg : String) (t2 : OrderTable)
    (herr : NextMatchedTx e tradePairs = (.error msg, t2)) : t2 = e.orderTable := by
  unfold NextMatchedTx at herr
  split at herr
  · exact (congrArg Prod.snd herr).symm
  · split at herr
    · exact (congrArg Prod.snd herr).symm
    · split at herr
      · exact (congrArg Prod.snd herr).symm
      · split at herr
        · exact (congrArg Prod.snd herr).symm
        next tx hb =>
          dsimp only at herr
          split at herr
          next m t3 hap =>
            have hok := addPartialTradeOrder_ok tx (tradePairs.foldl PopOrder e.orderTable)
            rw [hap] at hok
            exact absurd hok (by simp)
          next a t3 hap =>
            exact absurd (congrArg Prod.fst herr) (by simp)

/-! ## Concrete fixtures used by witnesses and counterexamples -/

def tableEmpty : OrderTable := fun _ => []

def engineEmpty : Engine := ⟨tableEmpty, .raw 0⟩

/-- The two-leg ring `assetA -> assetB, assetB -> assetA`. -/
def ring01 : List TradePair := [⟨0, 1⟩, ⟨1, 0⟩]

/-- A clean fully-crossing two-leg ring (both legs full trades, no fee). -/
def progA : Program := .p2wmc 1 2 1 (.raw 10)

def orderA : Order := ⟨0, 1, ⟨100, 0, 100000000, progA⟩, 1 / 2⟩

def progB : Program := .p2wmc 0 1 2 (.raw 11)

def orderB : Order := ⟨1, 0, ⟨200, 1, 200000000, progB⟩, 2⟩

def tableW1 : OrderTable := fun p =>
  if p = ⟨0, 1⟩ then [orderA] else if p = ⟨1, 0⟩ then [orderB] else []

def engineW1 : Engine := ⟨tableW1, .raw 99⟩

/-- A non-crossing two-leg ring (both rates 2, so `1/rate < rate`): the
crossing check fails but every build step succeeds. -/
def progC : Program := .p2wmc 1 1 2 (.raw 10)

def orderC : Order := ⟨0, 1, ⟨100, 0, 100, progC⟩, 2⟩

def progD : Program := .p2wmc 0 1 2 (.raw 11)

def orderD : Order := ⟨1, 0, ⟨200, 1, 100, progD⟩, 2⟩

def tableW2 : OrderTable := fun p =>
  if p = ⟨0, 1⟩ then [orderC] else if p = ⟨1, 0⟩ then [orderD] else []

def engineW2 : Engine := ⟨tableW2, .raw 99⟩

/-- A crossing ring with a price differential on one side: the first leg is a
partial trade whose re-order output drives the computed payable fee of asset
0 negative, so the `uint64` cast of the fee amount wraps. -/
def progE : Program := .p2wmc 1 2 1 (.raw 10)

def orderE : Order := ⟨0, 1, ⟨100, 0, 100, progE⟩, 1 / 2⟩

def progF : Program := .p2wmc 0 1 1 (.raw 11)

def orderF : Order := ⟨1, 0, ⟨200, 1, 100, progF⟩, 1⟩

def tableW3 : OrderTable := fun p =>
  if p = ⟨0, 1⟩ then [orderE] else if p = ⟨1, 0⟩ then [orderF] else []

def engineW3 : Engine := ⟨tableW3, .raw 99⟩

/-- A crossing ring of amount-1 orders: both legs have
`shouldPayAmount = 0`, so each is a partial trade whose continuation order
has the full original amount. -/
def progG : Program := .p2wmc 1 1 2 (.raw 10)

def orderG : Order := ⟨0, 1, ⟨100, 0, 1, progG⟩, 2⟩

def progH : Program := .p2wmc 0 1 2 (.raw 11)

def orderH : Order := ⟨1, 0, ⟨200, 1, 1, progH⟩, 2⟩

def tableW4 : OrderTable := fun p =>
  if p = ⟨0, 1⟩ then [orderG] else if p = ⟨1, 0⟩ then [orderH] else []

def engineW4 : Engine := ⟨tableW4, .raw 99⟩

/-- Sum of the amounts of a transaction's inputs of one asset. -/
def assetInSum (tx : TxData) (a : Nat) : Nat :=
  ((tx.inputs.filter fun i => i.assetID == a).map (·.amount)).sum

/-- Sum of the amounts of a transaction's outputs of one asset. -/
def assetOutSum (tx : TxData) (a : Nat) : Nat :=
  ((tx.outputs.filter fun o => o.assetID == a).map (·.amount)).sum

/-- C3 witness: a failing call (no resting orders) leaves the table as it
was. -/
theorem nextMatchedTx_error_table_unchanged_witness :
    (NextMatchedTx engineEmpty [⟨0, 1⟩, ⟨1, 0⟩]).2 = engineEmpty.orderTable :=
  nextMatchedTx_error_table_unchanged engineEmpty [⟨0, 1⟩, ⟨1, 0⟩]
    "no order for the specified trade pair in the order table"
    (NextMatchedTx engineEmpty [⟨0, 1⟩, ⟨1, 0⟩]).2 rfl

/-! ## Ring validation (C7) -/

theorem validateTradePairs_error_of_bad (pairs : List TradePair)
    (h : pairs.length < 2 ∨ ∃ i : Fin pairs.length,
      (pairs.get i).toAssetID ≠
        (pairs.get ⟨((i : Nat) + 1) % pairs.length, Nat.mod_lt _ i.pos⟩).fromAssetID) :
    validateTradePairs pairs = .error "size of trade pairs at least 2" ∨
      validateTradePairs pairs = .error "specified trade pairs is invalid" := by
  by_cases hlen : pairs.length < 2
  · left
    unfold validateTradePairs
    rw [if_pos hlen]
  · right
    rcases h with h | ⟨i, hne⟩
    · exact absurd h hlen
    · have hallF : ¬((pairs.zip (pairs.rotate 1)).all
          (fun pr => pr.1.toAssetID == pr.2.fromAssetID) = true) := by
        intro hall
        apply hne
        have hlt : (i : Nat) < (pairs.zip (pairs.rotate 1)).length := by
          simp only [List.length_zip, List.length_rotate, Nat.min_self]
          exact i.isLt
        have hp := List.all_eq_true.mp hall _ (List.getElem_mem hlt)
        rw [List.getElem_zip, List.getElem_rotate] at hp
        simpa [List.get_eq_getElem, beq_iff_eq] using hp
      unfold validateTradePairs
      rw [if_neg hlen, if_neg hallF]

/-- C7: for a ring with fewer than two legs, or one whose legs do not close
the loop, `HasMatchedTx` is false and `NextMatchedTx` fails with the
invalid-ring error, whatever the order table holds. -/
theorem invalid_ring_rejected (e : Engine) (pairs : List TradePair)
    (h : pairs.length < 2 ∨ ∃ i : Fin pairs.length,
      (pairs.get i).toAssetID ≠
        (pairs.get ⟨((i : Nat) + 1) % pairs.length, Nat.mod_lt _ i.pos⟩).fromAssetID) :
    HasMatchedTx e pairs = false ∧
      ∃ msg, NextMatchedTx e pairs = (.error msg, e.orderTable) ∧
        (msg = "size of trade pairs at least 2" ∨
          msg = "specified trade pairs is invalid") := by
  rcases validateTradePairs_error_of_bad pairs h with hv | hv
  · refine ⟨?_, ?_⟩
    · unfold HasMatchedTx
      rw [hv]
    · exact ⟨_, by unfold NextMatchedTx; rw [hv], Or.inl rfl⟩
  · refine ⟨?_, ?_⟩
    · unfold HasMatchedTx
      rw [hv]
    · exact ⟨_, by unfold NextMatchedTx; rw [hv], Or.inr rfl⟩

/-- C7 witness: a one-leg ring and a two-leg ring that does not close. -/
theorem invalid_ring_rejected_witness :
    (HasMatchedTx engineEmpty [⟨0, 1⟩] = false ∧
      ∃ msg, NextMatchedTx engineEmpty [⟨0, 1⟩] = (.error msg, engineEmpty.orderTable) ∧
        (msg = "size of trade pairs at least 2" ∨
          msg = "specified trade pairs is invalid")) ∧
    (HasMatchedTx engineEmpty [⟨0, 1⟩, ⟨1, 2⟩] = false ∧
      ∃ msg, NextMatchedTx engineEmpty [⟨0, 1⟩, ⟨1, 2⟩] = (.error msg, engineEmpty.orderTable) ∧
        (msg = "size of trade pairs at least 2" ∨
          msg = "specified trade pairs is invalid")) :=
  ⟨invalid_ring_rejected engineEmpty [⟨0, 1⟩] (Or.inl (by decide)),
    invalid_ring_rejected engineEmpty [⟨0, 1⟩, ⟨1, 2⟩]
      (Or.inr ⟨⟨1, by decide⟩, by decide⟩)⟩

/-! ## Missing-data behaviour of the fee computations (C8) -/

theorem inputPass_error_of_missing (recv : List (Program × TxOutput)) :
    ∀ (inputs : List TxInput) (pay mx : Nat → Int),
    (∀ inp ∈ inputs, (DecodeP2WMCProgram inp.controlProgram).isSome) →
    (∃ inp ∈ inputs, ∃ args, DecodeP2WMCProgram inp.controlProgram = some args ∧
      recv.lookup args.sellerProgram = none) →
    ∃ msg, inputPass recv inputs pay mx = .error msg := by
  intro inputs
  induction inputs with
  | nil => intro pay mx _ hmiss; simp at hmiss
  | cons inp rest ih =>
    intro pay mx hdec hmiss
    obtain ⟨args, hargs⟩ : ∃ args, DecodeP2WMCProgram inp.controlProgram = some args := by
      have := hdec inp (by simp)
      cases hd : DecodeP2WMCProgram inp.controlProgram with
      | none => rw [hd] at this; simp at this
      | some a => exact ⟨a, rfl⟩
    cases hlk : recv.lookup args.sellerProgram with
    | none =>
      exact ⟨"the input of matched tx has no receive output",
        by simp only [inputPass, hargs, hlk]⟩
    | some out =>
      have hmiss2 : ∃ inp0 ∈ rest, ∃ args0, DecodeP2WMCProgram inp0.controlProgram = some args0 ∧
          recv.lookup args0.sellerProgram = none := by
        obtain ⟨inp0, hmem, args0, hargs0, hlk0⟩ := hmiss
        rcases List.mem_cons.mp hmem with heq | hmem0
        · subst heq
          rw [hargs] at hargs0
          cases hargs0
          rw [hlk] at hlk0
          cases hlk0
        · exact ⟨inp0, hmem0, args0, hargs0, hlk0⟩
      obtain ⟨msg, hmsg⟩ := ih _ _ (fun x hx => hdec x (by simp [hx])) hmiss2
      exact ⟨msg, by simp only [inputPass, hargs, hlk]; exact hmsg⟩

/-- C8 (amended): `CalcFeeFromMatchedTx` fails whenever some input's seller
program has no receive output in the transaction, while
`DefaultFeeStrategy.Validate` treats an absent charged-fee entry as a zero
charged fee and accepts it (the Go map read returns the zero value). -/
theorem fee_policies_on_missing_data :
    (∀ txData : TxData,
      (∀ inp ∈ txData.inputs, (DecodeP2WMCProgram inp.controlProgram).isSome) →
      (∃ inp ∈ txData.inputs, ∃ args,
        DecodeP2WMCProgram inp.controlProgram = some args ∧
        (outputPass txData.outputs (fun _ => 0) []).2.lookup args.sellerProgram = none) →
      ∃ msg, CalcFeeFromMatchedTx txData = .error msg) ∧
    (∀ (receiveAmounts : List AssetAmount) (feeAmounts : List (Nat × Nat)),
      (∀ ra ∈ receiveAmounts, feeAmounts.lookup ra.assetID = none) →
      DefaultFeeStrategy.Validate receiveAmounts feeAmounts = .ok ()) := by
  constructor
  · intro txData hdec hmiss
    obtain ⟨msg, hmsg⟩ := inputPass_error_of_missing
      (outputPass txData.outputs (fun _ => 0) []).2 txData.inputs
      (outputPass txData.outputs (fun _ => 0) []).1 (fun _ => 0) hdec hmiss
    refine ⟨msg, ?_⟩
    unfold CalcFeeFromMatchedTx
    dsimp only
    rw [hmsg]
  · intro receiveAmounts feeAmounts habsent
    induction receiveAmounts with
    | nil => rfl
    | cons ra rest ih =>
      have h0 : DefaultFeeStrategy.lookupFee feeAmounts ra.assetID = 0 := by
        unfold DefaultFeeStrategy.lookupFee
        rw [habsent ra (by simp)]
        rfl
      unfold DefaultFeeStrategy.Validate
      rw [h0, if_neg (by simp)]
      exact ih fun x hx => habsent x (by simp [hx])

def txMissingReceive : TxData :=
  ⟨1, [⟨0, 100, 0, 0, .p2wmc 1 1 1 (.raw 5), []⟩], [], 0⟩

/-- C8 witness: a transaction whose single input has no receive output makes
`CalcFeeFromMatchedTx` fail, and `Validate` accepts a leg whose fee entry is
absent. -/
theorem fee_policies_on_missing_data_witness :
    (∃ msg, CalcFeeFromMatchedTx txMissingReceive = .error msg) ∧
      DefaultFeeStrategy.Validate [⟨1, 100⟩] [] = .ok () :=
  ⟨fee_policies_on_missing_data.1 txMissingReceive (by decide)
      ⟨⟨0, 100, 0, 0, .p2wmc 1 1 1 (.raw 5), []⟩, by decide, ⟨1, 1, 1, .raw 5⟩, rfl, rfl⟩,
    fee_policies_on_missing_data.2 [⟨1, 100⟩] [] (by decide)⟩

/-- C8 counterexample: the claim asserts `Validate` errors when a leg's
charged-fee entry is absent; here the entry for asset 1 is absent and
`Validate` succeeds. -/
theorem validate_absent_fee_counterexample :
    ([] : List (Nat × Nat)).lookup 1 = none ∧
      DefaultFeeStrategy.Validate [⟨1, 100⟩] [] = .ok () := by
  exact ⟨rfl, rfl⟩

/-! ## Properties of the binary64 rounding model -/

theorem log2fuel_spec : ∀ (fuel n : Nat), 1 ≤ n → n < 2 ^ fuel →
    2 ^ log2fuel fuel n ≤ n ∧ n < 2 ^ (log2fuel fuel n + 1) := by
  intro fuel
  induction fuel with
  | zero => intro n h1 h2; omega
  | succ f ih =>
    intro n h1 h2
    by_cases hn : n ≤ 1
    · have : n = 1 := by omega
      subst this
      simp [log2fuel]
    · have h2f : n / 2 < 2 ^ f := by
        have : (2 : Nat) ^ (f + 1) = 2 * 2 ^ f := by ring
        omega
      have h1f : 1 ≤ n / 2 := by omega
      obtain ⟨ha, hb⟩ := ih (n / 2) h1f h2f
      have hrw : log2fuel (f + 1) n = log2fuel f (n / 2) + 1 := by
        simp [log2fuel, hn]
      rw [hrw]
      constructor
      · calc 2 ^ (log2fuel f (n / 2) + 1) = 2 * 2 ^ log2fuel f (n / 2) := by ring
        _ ≤ 2 * (n / 2) := by omega
        _ ≤ n := by omega
      · have : (2 : Nat) ^ (log2fuel f (n / 2) + 1 + 1) = 2 * 2 ^ (log2fuel f (n / 2) + 1) := by
          ring
        omega

theorem floorLog2_spec (q : ℚ) (h1 : 1 ≤ q * 2 ^ 200) (h2 : q ≤ 2 ^ 190) :
    (2 : ℚ) ^ floorLog2 q ≤ q ∧ q < 2 ^ (floorLog2 q + 1) := by
  have hq0 : 0 < q := by nlinarith [pow_pos (by norm_num : (0:ℚ) < 2) 200]
  set N : ℤ := ⌊q * 2 ^ 300⌋ with hN
  have hNle : (N : ℚ) ≤ q * 2 ^ 300 := Int.floor_le _
  have hNgt : q * 2 ^ 300 < (N : ℚ) + 1 := Int.lt_floor_add_one _
  have hN1 : 1 ≤ N := by
    have : (1 : ℚ) ≤ q * 2 ^ 300 := by nlinarith [pow_pos (by norm_num : (0:ℚ) < 2) 100]
    exact_mod_cast Int.le_floor.mpr (by exact_mod_cast this)
  have hNhi : N < 2 ^ 500 := by
    have : q * 2 ^ 300 ≤ 2 ^ 490 := by nlinarith [pow_pos (by norm_num : (0:ℚ) < 2) 300]
    have h5 : (N : ℚ) < 2 ^ 500 := by nlinarith [pow_pos (by norm_num : (0:ℚ) < 2) 490]
    exact_mod_cast h5
  have hNtoNat : (N.toNat : ℤ) = N := Int.toNat_of_nonneg (by omega)
  have hfuel : N.toNat < 2 ^ 500 := by omega
  have h1fuel : 1 ≤ N.toNat := by omega
  obtain ⟨ha, hb⟩ := log2fuel_spec 500 N.toNat h1fuel hfuel
  set L : Nat := log2fuel 500 N.toNat with hL
  have hfl : floorLog2 q = (L : ℤ) - 300 := rfl
  have haQ : (2 : ℚ) ^ (L : ℤ) ≤ q * 2 ^ 300 := by
    have c1 : ((2 ^ L : ℕ) : ℚ) ≤ ((N.toNat : ℕ) : ℚ) := by exact_mod_cast ha
    have c2 : ((N.toNat : ℕ) : ℚ) = ((N : ℤ) : ℚ) := by exact_mod_cast hNtoNat
    have c3 : (2 : ℚ) ^ (L : ℤ) = ((2 ^ L : ℕ) : ℚ) := by
      rw [zpow_natCast]
      push_cast
      ring
    rw [c3]
    calc ((2 ^ L : ℕ) : ℚ) ≤ ((N : ℤ) : ℚ) := by rw [← c2]; exact c1
    _ ≤ q * 2 ^ 300 := hNle
  have hbQ : q * 2 ^ 300 < (2 : ℚ) ^ ((L : ℤ) + 1) := by
    have hZ : N < (2 : ℤ) ^ (L + 1) := by
      rw [← hNtoNat]
      exact_mod_cast hb
    have hb2 : ((N : ℤ) : ℚ) + 1 ≤ ((2 ^ (L + 1) : ℕ) : ℚ) := by exact_mod_cast hZ
    calc q * 2 ^ 300 < (N : ℚ) + 1 := hNgt
    _ ≤ ((2 ^ (L + 1) : ℕ) : ℚ) := hb2
    _ = (2 : ℚ) ^ ((L : ℤ) + 1) := by
        rw [zpow_add₀ (by norm_num : (2:ℚ) ≠ 0), zpow_natCast]
        push_cast
        ring
  have h2300 : (0 : ℚ) < 2 ^ (300 : ℕ) := by positivity
  have hcast : ((2 : ℚ) ^ (300 : ℕ)) = (2 : ℚ) ^ (300 : ℤ) := (zpow_natCast 2 300).symm
  constructor
  · rw [hfl]
    have hexp : (L : ℤ) - 300 + 300 = (L : ℤ) := by ring
    have hpow : (2 : ℚ) ^ ((L : ℤ) - 300) * 2 ^ (300 : ℤ) = 2 ^ (L : ℤ) := by
      rw [← zpow_add₀ (by norm_num : (2:ℚ) ≠ 0), hexp]
    rw [← hcast] at hpow
    rw [← hpow] at haQ
    exact le_of_mul_le_mul_right haQ h2300
  · rw [hfl]
    have hexp : (L : ℤ) - 300 + 1 + 300 = (L : ℤ) + 1 := by ring
    have hpow : (2 : ℚ) ^ ((L : ℤ) - 300 + 1) * 2 ^ (300 : ℤ) = 2 ^ ((L : ℤ) + 1) := by
      rw [← zpow_add₀ (by norm_num : (2:ℚ) ≠ 0), hexp]
    rw [← hcast] at hpow
    rw [← hpow] at hbQ
    exact lt_of_mul_lt_mul_right hbQ (le_of_lt h2300)

theorem roundF_pos_eq (q : ℚ) (hq : 0 < q) :
    roundF q = (rhe (q * 2 ^ (52 - floorLog2 q)) : ℚ) * 2 ^ (floorLog2 q - 52) := by
  unfold roundF roundPos
  rw [if_neg (ne_of_gt hq), if_pos hq]

theorem rhe_intCast (n : ℤ) : rhe (n : ℚ) = n := by
  unfold rhe
  rw [Int.floor_intCast]
  norm_num

theorem rhe_floor_le (s : ℚ) : ⌊s⌋ ≤ rhe s := by
  unfold rhe
  split
  · exact le_refl _
  · split
    · omega
    · split <;> omega

theorem rhe_le_floor_add_one (s : ℚ) : rhe s ≤ ⌊s⌋ + 1 := by
  unfold rhe
  split
  · omega
  · split
    · omega
    · split <;> omega

theorem rhe_down (s : ℚ) (h : s - ⌊s⌋ < 1 / 2) : rhe s = ⌊s⌋ := by
  unfold rhe
  rw [if_pos h]

theorem rhe_up (s : ℚ) (h : 1 / 2 < s - ⌊s⌋) : rhe s = ⌊s⌋ + 1 := by
  unfold rhe
  rw [if_neg (by linarith), if_pos h]

theorem rhe_close (s : ℚ) : |(rhe s : ℚ) - s| ≤ 1 / 2 := by
  have h1 : (⌊s⌋ : ℚ) ≤ s := Int.floor_le s
  have h2 : s < ⌊s⌋ + 1 := Int.lt_floor_add_one s
  unfold rhe
  split
  next h =>
    rw [abs_le]
    constructor <;> linarith
  · split
    next h3 h4 =>
      rw [abs_le]
      push_cast
      constructor <;> linarith
    next h3 h4 =>
      have h5 : s - ⌊s⌋ = 1 / 2 := by linarith
      split <;> (rw [abs_le]; push_cast; constructor <;> linarith)

theorem roundF_nonneg (q : ℚ) (h : 0 ≤ q) : 0 ≤ roundF q := by
  rcases eq_or_lt_of_le h with heq | hlt
  · rw [← heq]
    simp [roundF]
  · rw [roundF_pos_eq q hlt]
    have hs : 0 ≤ q * 2 ^ (52 - floorLog2 q) := by positivity
    have hf : (0 : ℤ) ≤ ⌊q * 2 ^ (52 - floorLog2 q)⌋ := Int.floor_nonneg.mpr hs
    have hr : (0 : ℤ) ≤ rhe (q * 2 ^ (52 - floorLog2 q)) :=
      le_trans hf (rhe_floor_le _)
    have : (0 : ℚ) ≤ (rhe (q * 2 ^ (52 - floorLog2 q)) : ℚ) := by exact_mod_cast hr
    positivity

theorem roundF_close (q : ℚ) (h1 : 1 ≤ q * 2 ^ 200) (h2 : q ≤ 2 ^ 190) :
    |roundF q - q| ≤ 2 ^ (floorLog2 q - 53) := by
  have hq : 0 < q := by nlinarith [pow_pos (by norm_num : (0:ℚ) < 2) 200]
  set e := floorLog2 q with he
  rw [roundF_pos_eq q hq]
  set s := q * 2 ^ (52 - e) with hs
  have hqs : q = s * 2 ^ (e - 52) := by
    rw [hs, mul_assoc, ← zpow_add₀ (by norm_num : (2:ℚ) ≠ 0)]
    norm_num
  have hpos : (0 : ℚ) < 2 ^ (e - 52) := by positivity
  calc |(rhe s : ℚ) * 2 ^ (e - 52) - q| = |(rhe s : ℚ) - s| * 2 ^ (e - 52) := by
        rw [hqs]
        rw [← sub_mul, abs_mul, abs_of_pos hpos]
  _ ≤ (1 / 2) * 2 ^ (e - 52) := by
      exact mul_le_mul_of_nonneg_right (rhe_close s) (le_of_lt hpos)
  _ = 2 ^ (e - 53) := by
      have hexp : (-1 : ℤ) + (e - 52) = e - 53 := by ring
      rw [show (1 : ℚ) / 2 = 2 ^ (-1 : ℤ) by norm_num]
      rw [← zpow_add₀ (by norm_num : (2:ℚ) ≠ 0), hexp]

theorem roundF_le_upper (q : ℚ) (h1 : 1 ≤ q * 2 ^ 200) (h2 : q ≤ 2 ^ 190) :
    roundF q ≤ q * (1 + 2 ^ (-53 : ℤ)) := by
  have hq : 0 < q := by nlinarith [pow_pos (by norm_num : (0:ℚ) < 2) 200]
  obtain ⟨he1, _⟩ := floorLog2_spec q h1 h2
  have hclose := roundF_close q h1 h2
  have hb : (2 : ℚ) ^ (floorLog2 q - 53) ≤ q * 2 ^ (-53 : ℤ) := by
    have hexp : floorLog2 q + -53 = floorLog2 q - 53 := by ring
    have : (2 : ℚ) ^ (floorLog2 q - 53) = 2 ^ floorLog2 q * 2 ^ (-53 : ℤ) := by
      rw [← zpow_add₀ (by norm_num : (2:ℚ) ≠ 0), hexp]
    rw [this]
    exact mul_le_mul_of_nonneg_right he1 (by positivity)
  have habs := (abs_le.mp hclose).2
  nlinarith

theorem roundF_ge_lower (q : ℚ) (h1 : 1 ≤ q * 2 ^ 200) (h2 : q ≤ 2 ^ 190) :
    q * (1 - 2 ^ (-53 : ℤ)) ≤ roundF q := by
  have hq : 0 < q := by nlinarith [pow_pos (by norm_num : (0:ℚ) < 2) 200]
  obtain ⟨he1, _⟩ := floorLog2_spec q h1 h2
  have hclose := roundF_close q h1 h2
  have hb : (2 : ℚ) ^ (floorLog2 q - 53) ≤ q * 2 ^ (-53 : ℤ) := by
    have hexp : floorLog2 q + -53 = floorLog2 q - 53 := by ring
    have : (2 : ℚ) ^ (floorLog2 q - 53) = 2 ^ floorLog2 q * 2 ^ (-53 : ℤ) := by
      rw [← zpow_add₀ (by norm_num : (2:ℚ) ≠ 0), hexp]
    rw [this]
    exact mul_le_mul_of_nonneg_right he1 (by positivity)
  have habs := (abs_le.mp hclose).1
  nlinarith

theorem exponent_le_52 (q : ℚ) (h1 : 1 ≤ q * 2 ^ 200) (h2 : q ≤ 2 ^ 190)
    (hqhi : q < 2 ^ (53 : ℤ)) : floorLog2 q ≤ 52 := by
  obtain ⟨he1, _⟩ := floorLog2_spec q h1 h2
  by_contra hcon
  push_neg at hcon
  have h53 : (2 : ℚ) ^ (53 : ℤ) ≤ 2 ^ floorLog2 q :=
    zpow_le_zpow_right₀ (by norm_num) (by omega)
  linarith

theorem half_step (e : ℤ) : (2 : ℚ) ^ (e - 53) * 2 ^ (52 - e) = 1 / 2 := by
  have hexp : e - 53 + (52 - e) = -1 := by ring
  rw [← zpow_add₀ (by norm_num : (2:ℚ) ≠ 0), hexp]
  norm_num

theorem scale_cancel (e : ℤ) : (2 : ℚ) ^ (52 - e) * 2 ^ (e - 52) = 1 := by
  have hexp : 52 - e + (e - 52) = 0 := by ring
  rw [← zpow_add₀ (by norm_num : (2:ℚ) ≠ 0), hexp]
  norm_num

/-- Rounding a positive rational that is within half an ulp above the
integer `n` (and below `2 ^ 53`, so the scaled mantissa of `n` is integral)
yields `n` exactly.  In particular `roundF` is exact on integers below
`2 ^ 53`. -/
theorem roundF_eq_intCast (q : ℚ) (n : ℤ)
    (h1 : 1 ≤ q * 2 ^ 200) (h2 : q ≤ 2 ^ 190) (hqhi : q < 2 ^ (53 : ℤ))
    (hle : (n : ℚ) ≤ q) (hclose : q - n < 2 ^ (floorLog2 q - 53)) :
    roundF q = (n : ℚ) := by
  have hq : 0 < q := by nlinarith [pow_pos (by norm_num : (0:ℚ) < 2) 200]
  set e := floorLog2 q with hedef
  have he52 : e ≤ 52 := exponent_le_52 q h1 h2 hqhi
  set K : ℕ := (52 - e).toNat with hKdef
  have hKcast : ((K : ℤ)) = 52 - e := Int.toNat_of_nonneg (by omega)
  set S : ℚ := 2 ^ (52 - e) with hSdef
  have hSpos : (0 : ℚ) < S := by positivity
  have hnK : ((n * 2 ^ K : ℤ) : ℚ) = (n : ℚ) * S := by
    have hSK : S = (2 : ℚ) ^ (K : ℤ) := by rw [hKcast]
    rw [hSK, zpow_natCast]
    push_cast
    ring
  have hhalf : (2 : ℚ) ^ (e - 53) * S = 1 / 2 := half_step e
  have hs1 : (q - n) * S < 1 / 2 := by
    calc (q - n) * S < 2 ^ (e - 53) * S := by
          exact mul_lt_mul_of_pos_right hclose hSpos
    _ = 1 / 2 := hhalf
  have hfloor : ⌊q * S⌋ = n * 2 ^ K := by
    rw [Int.floor_eq_iff]
    constructor
    · rw [hnK]
      exact mul_le_mul_of_nonneg_right hle (le_of_lt hSpos)
    · push_cast [hnK]
      nlinarith
  have hfrac : q * S - ⌊q * S⌋ < 1 / 2 := by
    rw [hfloor, hnK]
    nlinarith
  have hrw := roundF_pos_eq q hq
  rw [← hedef, ← hSdef] at hrw
  rw [hrw, rhe_down _ hfrac, hfloor, hnK]
  have : (n : ℚ) * S * 2 ^ (e - 52) = (n : ℚ) * (S * 2 ^ (e - 52)) := by ring
  rw [this, hSdef, scale_cancel e, mul_one]

/-- Rounding a positive non-integral rational strictly between `n` and
`n + 1` stays in the half-open interval `(n, n + 1]` provided the gap above
`n` exceeds half an ulp. -/
theorem roundF_between (q : ℚ) (n : ℤ) (γ : ℚ)
    (h1 : 1 ≤ q * 2 ^ 200) (h2 : q ≤ 2 ^ 190) (hqhi : q < 2 ^ (53 : ℤ))
    (hn : (n : ℚ) < q) (hq2 : q ≤ (n : ℚ) + 1) (hγ : γ ≤ q - n)
    (hth : 1 / 2 < γ * 2 ^ (52 - floorLog2 q)) :
    (n : ℚ) < roundF q ∧ roundF q ≤ (n : ℚ) + 1 := by
  have hq : 0 < q := by nlinarith [pow_pos (by norm_num : (0:ℚ) < 2) 200]
  set e := floorLog2 q with hedef
  have he52 : e ≤ 52 := exponent_le_52 q h1 h2 hqhi
  set K : ℕ := (52 - e).toNat with hKdef
  have hKcast : ((K : ℤ)) = 52 - e := Int.toNat_of_nonneg (by omega)
  set S : ℚ := 2 ^ (52 - e) with hSdef
  have hSpos : (0 : ℚ) < S := by positivity
  have hnK : ∀ m : ℤ, ((m * 2 ^ K : ℤ) : ℚ) = (m : ℚ) * S := by
    intro m
    have hSK : S = (2 : ℚ) ^ (K : ℤ) := by rw [hKcast]
    rw [hSK, zpow_natCast]
    push_cast
    ring
  have hcancel : S * 2 ^ (e - 52) = 1 := by rw [hSdef]; exact scale_cancel e
  have hEpos : (0 : ℚ) < 2 ^ (e - 52) := by positivity
  have hrw := roundF_pos_eq q hq
  rw [← hedef, ← hSdef] at hrw
  set s : ℚ := q * S with hsdef
  have hlow : n * 2 ^ K ≤ ⌊s⌋ := by
    apply Int.le_floor.mpr
    rw [hnK n]
    exact mul_le_mul_of_nonneg_right (le_of_lt hn) (le_of_lt hSpos)
  have hupViaS : s ≤ ((n + 1) * 2 ^ K : ℤ) := by
    rw [hnK (n + 1)]
    push_cast
    nlinarith
  have hrheLow : n * 2 ^ K + 1 ≤ rhe s := by
    rcases lt_or_eq_of_le hlow with hstrict | heq
    · exact le_trans (by omega) (rhe_floor_le s)
    · have hfr : 1 / 2 < s - ⌊s⌋ := by
        rw [← heq, hnK n]
        calc (1 : ℚ) / 2 < γ * S := hth
        _ ≤ (q - n) * S := mul_le_mul_of_nonneg_right hγ (le_of_lt hSpos)
        _ = s - n * S := by rw [hsdef]; ring
      rw [rhe_up s hfr, ← heq]
  have hrheHigh : rhe s ≤ (n + 1) * 2 ^ K := by
    have hfle : ⌊s⌋ ≤ (n + 1) * 2 ^ K := by
      have hmono := Int.floor_mono hupViaS
      rwa [Int.floor_intCast] at hmono
    rcases lt_or_eq_of_le hfle with hstrict | heq
    · exact le_trans (rhe_le_floor_add_one s) (by omega)
    · have hseq : s = (((n + 1) * 2 ^ K : ℤ) : ℚ) := by
        have hfl : ((⌊s⌋ : ℤ) : ℚ) ≤ s := Int.floor_le s
        rw [heq] at hfl
        exact le_antisymm hupViaS hfl
      have hfr : s - ⌊s⌋ < 1 / 2 := by
        rw [heq, hseq]
        norm_num
      rw [rhe_down s hfr, heq]
  constructor
  · rw [hrw]
    have hc1 : ((n * 2 ^ K : ℤ) : ℚ) * 2 ^ (e - 52) = (n : ℚ) := by
      rw [hnK n, mul_assoc, hcancel, mul_one]
    calc (n : ℚ) = ((n * 2 ^ K : ℤ) : ℚ) * 2 ^ (e - 52) := hc1.symm
    _ < ((n * 2 ^ K + 1 : ℤ) : ℚ) * 2 ^ (e - 52) := by
        apply mul_lt_mul_of_pos_right _ hEpos
        exact_mod_cast lt_add_one _
    _ ≤ (rhe s : ℚ) * 2 ^ (e - 52) := by
        apply mul_le_mul_of_nonneg_right _ (le_of_lt hEpos)
        exact_mod_cast hrheLow
  · rw [hrw]
    have hc2 : (((n + 1) * 2 ^ K : ℤ) : ℚ) * 2 ^ (e - 52) = (n : ℚ) + 1 := by
      rw [hnK (n + 1), mul_assoc, hcancel, mul_one]
      push_cast
      ring
    have hstep : (rhe s : ℚ) * 2 ^ (e - 52) ≤ (((n + 1) * 2 ^ K : ℤ) : ℚ) * 2 ^ (e - 52) := by
      apply mul_le_mul_of_nonneg_right _ (le_of_lt hEpos)
      exact_mod_cast hrheHigh
    calc (rhe s : ℚ) * 2 ^ (e - 52) ≤ (((n + 1) * 2 ^ K : ℤ) : ℚ) * 2 ^ (e - 52) := hstep
    _ = (n : ℚ) + 1 := hc2

theorem two_zpow53_eq : (2 : ℚ) ^ (53 : ℤ) = ((2 ^ 53 : ℕ) : ℚ) := by
  rw [show (53 : ℤ) = ((53 : ℕ) : ℤ) by norm_num, zpow_natCast]
  push_cast
  ring

/-- `roundF` is exact on natural numbers up to `2 ^ 53`. -/
theorem roundF_natCast (n : ℕ) (h1 : 1 ≤ n) (h2 : n ≤ 2 ^ 53) :
    roundF (n : ℚ) = (n : ℚ) := by
  rcases eq_or_lt_of_le h2 with heq | hlt
  · subst heq
    decide
  · have hq1 : (1 : ℚ) ≤ (n : ℚ) := by exact_mod_cast h1
    have hr1 : 1 ≤ (n : ℚ) * 2 ^ 200 := by nlinarith [pow_pos (by norm_num : (0:ℚ) < 2) 200]
    have hr2 : (n : ℚ) ≤ 2 ^ 190 := by
      have ha : (n : ℚ) ≤ ((2 ^ 53 : ℕ) : ℚ) := by exact_mod_cast h2
      have hb : ((2 ^ 53 : ℕ) : ℚ) ≤ 2 ^ 190 := by norm_num
      linarith
    have hqhi : (n : ℚ) < 2 ^ (53 : ℤ) := by
      rw [two_zpow53_eq]
      exact_mod_cast hlt
    have hres := roundF_eq_intCast (n : ℚ) (n : ℤ) hr1 hr2 hqhi
      (by push_cast; exact le_refl _) (by push_cast; rw [sub_self]; positivity)
    rw [hres]
    push_cast
    ring

/-- `roundF` is exact on integers between `1` and `2 ^ 53`; this covers
every `float64(x)` conversion performed by the code on its supported
ranges. -/
theorem roundF_intCast (i : ℤ) (h1 : 1 ≤ i) (h2 : i ≤ 2 ^ 53) :
    roundF (i : ℚ) = (i : ℚ) := by
  have hnat : i = (i.toNat : ℤ) := (Int.toNat_of_nonneg (by omega)).symm
  rw [hnat]
  push_cast
  have h2n : i.toNat ≤ 2 ^ 53 := by
    apply Int.toNat_le.mpr
    calc i ≤ (2 : ℤ) ^ 53 := h2
    _ = ((2 ^ 53 : ℕ) : ℤ) := by norm_num
  have := roundF_natCast i.toNat (by omega) h2n
  push_cast at this
  exact this

/-- Kernel of the float-exactness results: the binary64 ceiling of a
rounded quotient of exactly representable values agrees with the exact
ceiling whenever the dividend is at most `2 ^ 53`. -/
theorem ceil_roundF_div (P num : ℕ) (hP1 : 1 ≤ P) (hP : P ≤ 2 ^ 53)
    (hn1 : 1 ≤ num) (hn2 : num ≤ 2 ^ 53) :
    ⌈roundF ((P : ℚ) / num)⌉ = ⌈(P : ℚ) / num⌉ := by
  set q : ℚ := (P : ℚ) / num with hqdef
  have hnum0 : (0 : ℚ) < num := by exact_mod_cast hn1
  have hP0 : (0 : ℚ) < P := by exact_mod_cast hP1
  have hq0 : 0 < q := div_pos hP0 hnum0
  have hqnum : q * num = (P : ℚ) := div_mul_cancel₀ _ (ne_of_gt hnum0)
  have hr1 : 1 ≤ q * 2 ^ 200 := by
    rw [hqdef, div_mul_eq_mul_div, le_div_iff hnum0, one_mul]
    have hc1 : (num : ℚ) ≤ 2 ^ 53 := by exact_mod_cast hn2
    have hc2 : (2 : ℚ) ^ 53 ≤ 2 ^ 200 := by norm_num
    have hc3 : (1 : ℚ) ≤ (P : ℚ) := by exact_mod_cast hP1
    nlinarith [pow_pos (by norm_num : (0:ℚ) < 2) 200]
  have hqleP : q ≤ (P : ℚ) := by
    rw [hqdef]
    exact div_le_self (le_of_lt hP0) (by exact_mod_cast hn1)
  have hr2 : q ≤ 2 ^ 190 := by
    have ha : (P : ℚ) ≤ ((2 ^ 53 : ℕ) : ℚ) := by exact_mod_cast hP
    have hb : ((2 ^ 53 : ℕ) : ℚ) ≤ 2 ^ 190 := by norm_num
    linarith
  by_cases hdvd : num ∣ P
  · obtain ⟨c, hc⟩ := hdvd
    have hc1 : 1 ≤ c := by
      rcases Nat.eq_zero_or_pos c with h0 | h0
      · subst h0; omega
      · exact h0
    have hc2 : c ≤ 2 ^ 53 := le_trans (Nat.le_of_dvd (by omega) ⟨num, by rw [hc]; ring⟩) hP
    have hceq : q = (c : ℚ) := by
      rw [hqdef, hc]
      push_cast
      rw [mul_comm]
      exact mul_div_cancel_right₀ _ (ne_of_gt hnum0)
    rw [hceq, roundF_natCast c hc1 hc2]
  · set n : ℤ := ⌊q⌋ with hndef
    have hnq : (n : ℚ) ≤ q := Int.floor_le q
    have hn0 : 0 ≤ n := Int.floor_nonneg.mpr (le_of_lt hq0)
    have hint_of_eq : ∀ z : ℤ, 0 ≤ z → q = (z : ℚ) → False := by
      intro z hz heq
      apply hdvd
      have hPz : (P : ℚ) = (z : ℚ) * num := by rw [← heq]; exact hqnum.symm
      have hPz2 : (P : ℤ) = z * num := by exact_mod_cast hPz
      refine ⟨z.toNat, ?_⟩
      have : (P : ℤ) = (num : ℤ) * z.toNat := by
        rw [Int.toNat_of_nonneg hz, mul_comm]
        exact hPz2
      exact_mod_cast this
    have hnoni : (n : ℚ) ≠ q := by
      intro heq
      exact hint_of_eq n hn0 heq.symm
    have hlt : (n : ℚ) < q := lt_of_le_of_ne hnq hnoni
    have hup : q ≤ (n : ℚ) + 1 := le_of_lt (Int.lt_floor_add_one q)
    have hPn : n * num + 1 ≤ (P : ℤ) := by
      have h1 : (n : ℚ) * num < q * num := mul_lt_mul_of_pos_right hlt hnum0
      rw [hqnum] at h1
      have h2 : (n * num : ℤ) < (P : ℤ) := by exact_mod_cast h1
      omega
    have hgap : 1 / (num : ℚ) ≤ q - n := by
      rw [div_le_iff hnum0]
      have hqn : (q - n) * num = (P : ℚ) - n * num := by
        rw [sub_mul, hqnum]
      rw [hqn]
      have : ((n * num + 1 : ℤ) : ℚ) ≤ ((P : ℤ) : ℚ) := by exact_mod_cast hPn
      push_cast at this
      linarith
    have hzc : (2 : ℚ) ^ (53 : ℤ) = ((2 ^ 53 : ℕ) : ℚ) := two_zpow53_eq
    have hqhi : q < 2 ^ (53 : ℤ) := by
      rw [hzc]
      rcases lt_or_eq_of_le (le_trans hqleP
          (by exact_mod_cast hP : (P : ℚ) ≤ ((2 ^ 53 : ℕ) : ℚ))) with h | h
      · exact h
      · exfalso
        exact hint_of_eq ((2 : ℤ) ^ 53) (by positivity) (by rw [h]; push_cast; ring)
    set e : ℤ := floorLog2 q with hedef
    obtain ⟨he1, he2⟩ := floorLog2_spec q hr1 hr2
    have hnum_lt : (num : ℚ) < 2 ^ ((53 : ℤ) - e) := by
      by_contra hcon
      push_neg at hcon
      have hnum2e : (num : ℚ) * 2 ^ e ≤ P := by
        calc (num : ℚ) * 2 ^ e ≤ (num : ℚ) * q := by
              exact mul_le_mul_of_nonneg_left he1 (le_of_lt hnum0)
        _ = (P : ℚ) := by rw [mul_comm]; exact hqnum
      have hsplit : (2 : ℚ) ^ ((53 : ℤ) - e) * 2 ^ e = 2 ^ (53 : ℤ) := by
        have hexp : (53 : ℤ) - e + e = 53 := by ring
        rw [← zpow_add₀ (by norm_num : (2:ℚ) ≠ 0), hexp]
      have hepos : (0 : ℚ) < 2 ^ e := by positivity
      have h53le : (2 : ℚ) ^ (53 : ℤ) ≤ (num : ℚ) * 2 ^ e := by
        rw [← hsplit]
        exact mul_le_mul_of_nonneg_right hcon (le_of_lt hepos)
      have hPle : (P : ℚ) ≤ 2 ^ (53 : ℤ) := by rw [hzc]; exact_mod_cast hP
      have hPeq : (P : ℚ) = (num : ℚ) * 2 ^ e := le_antisymm (by linarith) hnum2e
      have hqe : q = 2 ^ e := by
        rw [hqdef, hPeq, mul_comm, mul_div_assoc, div_self (ne_of_gt hnum0), mul_one]
      have hele : e ≤ 53 := by
        by_contra hcon2
        push_neg at hcon2
        have : (2 : ℚ) ^ (53 : ℤ) < 2 ^ e := by
          apply zpow_lt_zpow_right₀ (by norm_num : (1:ℚ) < 2) (by omega)
        rw [← hqe] at this
        rw [hzc] at this
        have hqP : q ≤ ((2 ^ 53 : ℕ) : ℚ) := le_trans hqleP (by exact_mod_cast hP)
        linarith
      have hepos2 : 0 ≤ e := by
        by_contra hcon2
        push_neg at hcon2
        have h1e : (2 : ℚ) ^ ((53 : ℤ) - e) ≤ ((2 ^ 53 : ℕ) : ℚ) := by
          rw [← hzc]
          exact le_trans hcon (by exact_mod_cast (by exact_mod_cast hn2 : (num : ℚ) ≤ ((2 ^ 53 : ℕ) : ℚ)))
        have h2e : (2 : ℚ) ^ (53 : ℤ) < 2 ^ ((53 : ℤ) - e) := by
          apply zpow_lt_zpow_right₀ (by norm_num : (1:ℚ) < 2) (by omega)
        rw [hzc] at h2e
        linarith
      exact hint_of_eq ((2 : ℤ) ^ e.toNat) (by positivity) (by
        rw [hqe]
        push_cast
        rw [← zpow_natCast (2 : ℚ) e.toNat, Int.toNat_of_nonneg hepos2])
    have hth : 1 / 2 < 1 / (num : ℚ) * 2 ^ ((52 : ℤ) - e) := by
      have hsplit : (2 : ℚ) ^ ((52 : ℤ) - e) / 2 ^ ((53 : ℤ) - e) = 1 / 2 := by
        rw [← zpow_sub₀ (by norm_num : (2:ℚ) ≠ 0)]
        have hexp : (52 : ℤ) - e - ((53 : ℤ) - e) = -1 := by ring
        rw [hexp]
        norm_num
      have hd : (2 : ℚ) ^ ((52 : ℤ) - e) / 2 ^ ((53 : ℤ) - e) <
          (2 : ℚ) ^ ((52 : ℤ) - e) / num := by
        apply div_lt_div_of_pos_left (by positivity) hnum0 hnum_lt
      rw [hsplit] at hd
      calc (1 : ℚ) / 2 < 2 ^ ((52 : ℤ) - e) / num := hd
      _ = 1 / (num : ℚ) * 2 ^ ((52 : ℤ) - e) := by ring
    obtain ⟨hgt, hle2⟩ := roundF_between q n (1 / num) hr1 hr2 hqhi hlt hup hgap hth
    have hceilq : ⌈q⌉ = n + 1 := by
      rw [Int.ceil_eq_iff]
      constructor
      · push_cast
        linarith
      · push_cast
        linarith
    have hceild : ⌈roundF q⌉ = n + 1 := by
      rw [Int.ceil_eq_iff]
      constructor
      · push_cast
        linarith
      · push_cast
        linarith
    rw [hceild, hceilq]

theorem u64ofInt_eq_toNat (i : Int) (h0 : 0 ≤ i) (h1 : i < 2 ^ 64) :
    u64ofInt i = i.toNat := by
  unfold u64ofInt
  rw [show i.emod (2 ^ 64) = i % 2 ^ 64 from rfl, Int.emod_eq_of_lt h0 h1]

theorem roundF_zero : roundF 0 = 0 := by
  simp [roundF]

/-- Putting the pieces together for one `uint64(math.Ceil(float64(a) *
float64(d) / float64(n)))` expression with exactly representable operands
and product: the result is the exact ceiling. -/
theorem ceil_float_expr_exact (a : ℕ) (d n : ℤ)
    (ha : 1 ≤ a) (hd : 1 ≤ d) (hn : 1 ≤ n) (hn2 : n ≤ 2 ^ 53)
    (hprod : (a : ℤ) * d ≤ 2 ^ 53) :
    (u64ofInt ⌈fdiv (fmul (f64 a) (f64i d)) (f64i n)⌉ : ℤ) =
      ⌈(a : ℚ) * (d : ℚ) / (n : ℚ)⌉ := by
  have hd53 : d ≤ 2 ^ 53 := by nlinarith
  have ha53 : a ≤ 2 ^ 53 := by
    have : (a : ℤ) ≤ 2 ^ 53 := by nlinarith
    have hc : ((2 ^ 53 : ℕ) : ℤ) = 2 ^ 53 := by norm_num
    omega
  set P : ℕ := a * d.toNat with hPdef
  have hdT : ((d.toNat : ℤ)) = d := Int.toNat_of_nonneg (by omega)
  have hdQ : ((d.toNat : ℕ) : ℚ) = (d : ℚ) := by exact_mod_cast hdT
  have hP1 : 1 ≤ P := by
    calc 1 = 1 * 1 := rfl
    _ ≤ a * d.toNat := Nat.mul_le_mul ha (by omega)
  have hPle : P ≤ 2 ^ 53 := by
    have h1 : ((P : ℕ) : ℤ) = (a : ℤ) * d := by
      rw [hPdef]
      push_cast
      rw [hdT]
    have hc : ((2 ^ 53 : ℕ) : ℤ) = 2 ^ 53 := by norm_num
    omega
  set NM : ℕ := n.toNat with hNMdef
  have hnT : ((NM : ℤ)) = n := Int.toNat_of_nonneg (by omega)
  have hnQ : ((NM : ℕ) : ℚ) = (n : ℚ) := by exact_mod_cast hnT
  have hNM1 : 1 ≤ NM := by omega
  have hNMle : NM ≤ 2 ^ 53 := by
    have hc : ((2 ^ 53 : ℕ) : ℤ) = 2 ^ 53 := by norm_num
    omega
  have e1 : f64 a = (a : ℚ) := roundF_natCast a ha ha53
  have e2 : f64i d = (d : ℚ) := roundF_intCast d hd hd53
  have ecast : (a : ℚ) * (d : ℚ) = ((P : ℕ) : ℚ) := by
    rw [hPdef]
    push_cast
    rw [hdQ]
  have e3 : fmul (f64 a) (f64i d) = ((P : ℕ) : ℚ) := by
    unfold fmul
    rw [e1, e2, ecast]
    exact roundF_natCast P hP1 hPle
  have e4 : f64i n = ((NM : ℕ) : ℚ) := by
    unfold f64i
    rw [← hnQ]
    exact roundF_natCast NM hNM1 hNMle
  have e5 : ⌈fdiv (fmul (f64 a) (f64i d)) (f64i n)⌉ = ⌈((P : ℕ) : ℚ) / ((NM : ℕ) : ℚ)⌉ := by
    unfold fdiv
    rw [e3, e4]
    exact ceil_roundF_div P NM hP1 hPle hNM1 hNMle
  have hq0 : (0 : ℚ) < ((P : ℕ) : ℚ) / ((NM : ℕ) : ℚ) := by
    apply div_pos
    · exact_mod_cast hP1
    · exact_mod_cast hNM1
  have hceil0 : 0 ≤ ⌈((P : ℕ) : ℚ) / ((NM : ℕ) : ℚ)⌉ := Int.ceil_nonneg (le_of_lt hq0)
  have hceilP : ⌈((P : ℕ) : ℚ) / ((NM : ℕ) : ℚ)⌉ ≤ (P : ℤ) := by
    apply Int.ceil_le.mpr
    push_cast
    apply div_le_self
    · positivity
    · exact_mod_cast hNM1
  have hlt64 : ⌈((P : ℕ) : ℚ) / ((NM : ℕ) : ℚ)⌉ < 2 ^ 64 := by
    have hc : ((2 ^ 53 : ℕ) : ℤ) = 2 ^ 53 := by norm_num
    have h64 : (2 : ℤ) ^ 53 < 2 ^ 64 := by norm_num
    omega
  rw [e5, u64ofInt_eq_toNat _ hceil0 hlt64, Int.toNat_of_nonneg hceil0]
  congr 1
  rw [← ecast, hnQ]

theorem u64ofInt_zero : u64ofInt 0 = 0 := rfl

/-- `CalcShouldPayAmount` computes the exact ceiling of
`receiveAmount * ratioDenominator / ratioNumerator` whenever the numerator
is in `[1, 2^53]` and the product `receiveAmount * ratioDenominator` does
not exceed `2 ^ 53` (so that no binary64 rounding occurs). -/
theorem CalcShouldPayAmount_exact (r : ℕ) (contractArg : MagneticContractArgs)
    (hnum1 : 1 ≤ contractArg.ratioNumerator) (hnum2 : contractArg.ratioNumerator ≤ 2 ^ 53)
    (hden : 1 ≤ contractArg.ratioDenominator)
    (hprod : (r : ℤ) * contractArg.ratioDenominator ≤ 2 ^ 53) :
    (CalcShouldPayAmount r contractArg : ℤ) =
      ⌈(r : ℚ) * (contractArg.ratioDenominator : ℚ) / (contractArg.ratioNumerator : ℚ)⌉ := by
  rcases Nat.eq_zero_or_pos r with h0 | h1
  · subst h0
    unfold CalcShouldPayAmount f64 fmul fdiv
    norm_num [roundF_zero, u64ofInt_zero]
  · exact ceil_float_expr_exact r contractArg.ratioDenominator contractArg.ratioNumerator
      h1 hden hnum1 hnum2 hprod

theorem calcFeeAmount_maker (a : ℕ) : DefaultFeeStrategy.calcFeeAmount a true = 0 := by
  unfold DefaultFeeStrategy.calcFeeAmount f64 f64i fmul fdiv
  norm_num [roundF_zero, u64ofInt_zero]

/-- The taker fee computation is the exact ceiling of `amount * 3 / 10000`
whenever `3 * amount ≤ 2 ^ 53`. -/
theorem calcFeeAmount_taker_exact (a : ℕ) (h : (a : ℤ) * 3 ≤ 2 ^ 53) :
    (DefaultFeeStrategy.calcFeeAmount a false : ℤ) = ⌈(a : ℚ) * 3 / 10000⌉ := by
  rcases Nat.eq_zero_or_pos a with h0 | h1
  · subst h0
    unfold DefaultFeeStrategy.calcFeeAmount f64 fmul fdiv
    norm_num [roundF_zero, u64ofInt_zero]
  · have hlit : ((10000 : ℚ)) = ((10000 : ℤ) : ℚ) := by norm_num
    have hres := ceil_float_expr_exact a 3 10000 h1 (by norm_num) (by norm_num)
      (by norm_num) h
    unfold DefaultFeeStrategy.calcFeeAmount
    have hsel : (if (false : Bool) = true then (0 : ℤ) else 3) = 3 := rfl
    rw [hsel]
    have hdiv : f64i 10000 = (10000 : ℚ) := by
      have := roundF_intCast 10000 (by norm_num) (by norm_num)
      unfold f64i
      rw [this]
      norm_num
    rw [show (10000 : ℚ) = f64i 10000 from hdiv.symm]
    rw [hres]
    congr 1

set_option maxHeartbeats 2000000 in
/-- The fee on an amount never exceeds the amount: the float64 computation
of `ceil(amount * 3 / 10000)` is at most `3.1/10000` of the amount even
with worst-case rounding at every step. -/
theorem calcFeeAmount_le (a : ℕ) (isMaker : Bool) (ha64 : a < 2 ^ 64) :
    DefaultFeeStrategy.calcFeeAmount a isMaker ≤ a := by
  cases isMaker
  case true =>
    rw [calcFeeAmount_maker]
    exact Nat.zero_le a
  case false =>
    rcases Nat.eq_zero_or_pos a with h0 | h1
    · subst h0
      unfold DefaultFeeStrategy.calcFeeAmount f64 fmul fdiv
      norm_num [roundF_zero, u64ofInt_zero]
    · have haQ1 : (1 : ℚ) ≤ (a : ℚ) := by exact_mod_cast h1
      have haQ64 : (a : ℚ) ≤ 2 ^ 64 := by
        have h2 : (a : ℚ) < ((2 ^ 64 : ℕ) : ℚ) := by exact_mod_cast ha64
        have h3 : ((2 ^ 64 : ℕ) : ℚ) = 2 ^ 64 := by norm_num
        linarith [h3 ▸ h2]
      have hu : (2 : ℚ) ^ (-53 : ℤ) = 1 / 9007199254740992 := by norm_num
      have h3eq : f64i 3 = (3 : ℚ) := by
        have := roundF_intCast 3 (by norm_num) (by norm_num)
        unfold f64i
        rw [this]
        norm_num
      set t0 : ℚ := f64 a with ht0def
      have hr1a : 1 ≤ (a : ℚ) * 2 ^ 200 := by
        nlinarith [pow_pos (by norm_num : (0:ℚ) < 2) 200]
      have hr2a : (a : ℚ) ≤ 2 ^ 190 := by
        have : (2 : ℚ) ^ 64 ≤ 2 ^ 190 := by norm_num
        linarith
      have ht0u : t0 ≤ (a : ℚ) * (1 + 2 ^ (-53 : ℤ)) := roundF_le_upper _ hr1a hr2a
      have ht0l : (a : ℚ) * (1 - 2 ^ (-53 : ℤ)) ≤ t0 := roundF_ge_lower _ hr1a hr2a
      have ht0half : (1 : ℚ) / 2 ≤ t0 := by
        rw [hu] at ht0l
        nlinarith
      have ht0hi : t0 ≤ 2 ^ 65 := by
        rw [hu] at ht0u
        have : (2 : ℚ) ^ 64 * 2 ≤ 2 ^ 65 := by norm_num
        nlinarith
      have hr1b : 1 ≤ t0 * 3 * 2 ^ 200 := by
        nlinarith [pow_pos (by norm_num : (0:ℚ) < 2) 200]
      have hr2b : t0 * 3 ≤ 2 ^ 190 := by
        have : (2 : ℚ) ^ 65 * 3 ≤ 2 ^ 190 := by norm_num
        nlinarith
      set t1 : ℚ := fmul t0 (f64i 3) with ht1def
      have ht1eq : t1 = roundF (t0 * 3) := by rw [ht1def, h3eq]; rfl
      have ht1u : t1 ≤ t0 * 3 * (1 + 2 ^ (-53 : ℤ)) := by
        rw [ht1eq]
        exact roundF_le_upper _ hr1b hr2b
      have ht1l : 0 ≤ t1 := by
        rw [ht1eq]
        apply roundF_nonneg
        nlinarith
      have ht1half : (1 : ℚ) ≤ t1 := by
        rw [ht1eq]
        have := roundF_ge_lower _ hr1b hr2b
        rw [hu] at this
        nlinarith
      have ht1hi : t1 ≤ 2 ^ 70 := by
        rw [hu] at ht1u
        have : (2 : ℚ) ^ 65 * 3 * 2 ≤ 2 ^ 70 := by norm_num
        nlinarith
      have hr1c : 1 ≤ t1 / 10000 * 2 ^ 200 := by
        have h200 : (10000 : ℚ) ≤ 2 ^ 200 := by norm_num
        rw [div_mul_eq_mul_div, le_div_iff (by norm_num : (0:ℚ) < 10000), one_mul]
        nlinarith [pow_pos (by norm_num : (0:ℚ) < 2) 200]
      have hr2c : t1 / 10000 ≤ 2 ^ 190 := by
        have : (2 : ℚ) ^ 70 ≤ 2 ^ 190 * 10000 := by norm_num
        rw [div_le_iff (by norm_num : (0:ℚ) < 10000)]
        nlinarith
      set t2 : ℚ := fdiv t1 10000 with ht2def
      have ht2eq : t2 = roundF (t1 / 10000) := rfl
      have ht2u : t2 ≤ t1 / 10000 * (1 + 2 ^ (-53 : ℤ)) := by
        rw [ht2eq]
        exact roundF_le_upper _ hr1c hr2c
      have ht2l : 0 ≤ t2 := by
        rw [ht2eq]
        apply roundF_nonneg
        positivity
      have ht2a : t2 ≤ (a : ℚ) := by
        rw [hu] at ht2u ht1u ht0u
        have husmall : (1 / 9007199254740992 : ℚ) ≤ 1 := by norm_num
        have hb0 : t0 ≤ 2 * a := by nlinarith
        have ht0u2 : t0 * (1 / 9007199254740992) ≤ t0 :=
          mul_le_of_le_one_right (by linarith) husmall
        have hb1 : t1 ≤ 12 * a := by nlinarith
        have ht1u3 : t1 * (1 / 9007199254740992) ≤ t1 :=
          mul_le_of_le_one_right ht1l husmall
        have hb2 : t2 ≤ 24 / 10000 * a := by nlinarith
        nlinarith
      unfold DefaultFeeStrategy.calcFeeAmount
      have hsel : (if (false : Bool) = true then (0 : ℤ) else 3) = 3 := rfl
      rw [hsel]
      have hgoal : u64ofInt ⌈fdiv (fmul (f64 a) (f64i 3)) 10000⌉ ≤ a := by
        have hc0 : 0 ≤ ⌈t2⌉ := Int.ceil_nonneg ht2l
        have hca : ⌈t2⌉ ≤ (a : ℤ) := Int.ceil_le.mpr (by exact_mod_cast ht2a)
        have hc64 : ⌈t2⌉ < 2 ^ 64 := by
          have hc : ((2 ^ 64 : ℕ) : ℤ) = 2 ^ 64 := by norm_num
          omega
        rw [show fdiv (fmul (f64 a) (f64i 3)) 10000 = t2 from rfl]
        rw [u64ofInt_eq_toNat _ hc0 hc64]
        omega
      exact hgoal

/-- `CalcMaxFeeAmount` is never negative. -/
theorem CalcMaxFeeAmount_nonneg (shouldPayAmount : Nat) :
    0 ≤ CalcMaxFeeAmount shouldPayAmount := by
  unfold CalcMaxFeeAmount
  apply Int.ceil_nonneg
  unfold fmul
  apply roundF_nonneg
  apply mul_nonneg
  · exact roundF_nonneg _ (by positivity)
  · exact roundF_nonneg _ (by norm_num)

/-- `maxFeeRate` is the binary64 value nearest to `0.05`, namely
`3602879701896397 / 2 ^ 56 = (1/20) * (1 + 2 ^ (-54))`, slightly above
`1/20`. -/
theorem maxFeeRate_eq : maxFeeRate = 3602879701896397 / 72057594037927936 := by
  decide

set_option maxHeartbeats 1000000 in
/-- For `shouldPayAmount ≤ 2 ^ 53`, `CalcMaxFeeAmount` computes the exact
ceiling of `shouldPayAmount / 20`: the excess `sp / (20 * 2 ^ 54)` coming
from `maxFeeRate > 1/20` is either absorbed by the rounding of the product
(exact multiples of 20) or stays inside the same unit interval. -/
theorem CalcMaxFeeAmount_exact (sp : ℕ) (hsp : sp ≤ 2 ^ 53) :
    CalcMaxFeeAmount sp = ⌈(sp : ℚ) / 20⌉ := by
  rcases Nat.eq_zero_or_pos sp with h0 | h1
  · subst h0
    unfold CalcMaxFeeAmount f64 fmul
    norm_num [roundF_zero]
  · have hf : f64 sp = (sp : ℚ) := roundF_natCast sp h1 hsp
    unfold CalcMaxFeeAmount fmul
    rw [hf, maxFeeRate_eq]
    set q : ℚ := (sp : ℚ) * (3602879701896397 / 72057594037927936) with hqdef
    set N : ℕ := sp / 20 with hNdef
    set R : ℕ := sp % 20 with hRdef
    have hsp20 : sp = 20 * N + R := by omega
    have hR19 : R ≤ 19 := by omega
    have hspQeq : (sp : ℚ) = 20 * (N : ℚ) + (R : ℚ) := by exact_mod_cast hsp20
    have hRQ : (R : ℚ) ≤ 19 := by exact_mod_cast hR19
    have hRQ0 : (0 : ℚ) ≤ (R : ℚ) := by positivity
    have hNQ0 : (0 : ℚ) ≤ (N : ℚ) := by positivity
    have hspQ1 : (1 : ℚ) ≤ (sp : ℚ) := by exact_mod_cast h1
    have hspQhi : (sp : ℚ) ≤ 9007199254740992 := by
      have h : (sp : ℚ) ≤ ((2 ^ 53 : ℕ) : ℚ) := by exact_mod_cast hsp
      norm_num at h
      exact_mod_cast h
    have hqalt : q = (N : ℚ) + (R : ℚ) / 20 + (sp : ℚ) / 360287970189639680 := by
      rw [hqdef, hspQeq]
      ring
    have hq120 : (1 : ℚ) / 20 ≤ q := by
      rw [hqalt]
      linarith
    have hqhi49 : q < 562949953421312 := by
      rw [hqdef]
      nlinarith
    have hr1 : 1 ≤ q * 2 ^ 200 := by
      nlinarith [pow_pos (by norm_num : (0:ℚ) < 2) 200,
        (by norm_num : (1 : ℚ) ≤ 1 / 20 * 2 ^ 200)]
    have hr2 : q ≤ 2 ^ 190 := by
      have h190 : (562949953421312 : ℚ) ≤ 2 ^ 190 := by norm_num
      linarith
    have hqhi53 : q < 2 ^ (53 : ℤ) := by
      have h53 : (2 : ℚ) ^ (53 : ℤ) = 9007199254740992 := by norm_num
      rw [h53]
      linarith
    obtain ⟨he1, he2⟩ := floorLog2_spec q hr1 hr2
    set e := floorLog2 q with hedef
    rcases Nat.eq_zero_or_pos R with hr0 | hrpos
    · have hN1 : 1 ≤ N := by omega
      have hNQ1 : (1 : ℚ) ≤ (N : ℚ) := by exact_mod_cast hN1
      have hR0Q : (R : ℚ) = 0 := by
        rw [hr0]
        norm_num
      have hqN : q = (N : ℚ) + (N : ℚ) / 18014398509481984 := by
        rw [hqalt, hspQeq, hR0Q]
        ring
      have hNq : (N : ℚ) ≤ q := by
        rw [hqN]
        linarith
      have hNlt : (N : ℚ) < 2 ^ (e + 1) := lt_of_le_of_lt hNq he2
      have hle : ((N : ℤ) : ℚ) ≤ q := by
        push_cast
        exact hNq
      have hclose : q - ((N : ℤ) : ℚ) < 2 ^ (e - 53) := by
        have hsplit : (2 : ℚ) ^ (e - 53) = 2 ^ (e + 1) * (1 / 18014398509481984) := by
          have h54 : (2 : ℚ) ^ (-54 : ℤ) = 1 / 18014398509481984 := by norm_num
          have hexp : e + 1 + (-54 : ℤ) = e - 53 := by ring
          rw [← h54, ← zpow_add₀ (by norm_num : (2 : ℚ) ≠ 0), hexp]
        push_cast
        rw [hqN, hsplit]
        linarith
      have hround : roundF q = ((N : ℤ) : ℚ) :=
        roundF_eq_intCast q (N : ℤ) hr1 hr2 hqhi53 hle hclose
      have hrhs : (sp : ℚ) / 20 = ((N : ℤ) : ℚ) := by
        rw [hspQeq, hR0Q]
        push_cast
        ring
      rw [hround, hrhs, Int.ceil_intCast]
    · have hRQ1 : (1 : ℚ) ≤ (R : ℚ) := by exact_mod_cast hrpos
      have hn : ((N : ℤ) : ℚ) < q := by
        push_cast
        rw [hqalt]
        linarith
      have hq2 : q ≤ ((N : ℤ) : ℚ) + 1 := by
        push_cast
        rw [hqalt]
        linarith
      have hγ : (1 : ℚ) / 20 ≤ q - ((N : ℤ) : ℚ) := by
        push_cast
        rw [hqalt]
        linarith
      have he48 : e ≤ 48 := by
        by_contra hcon
        push_neg at hcon
        have h49 : (2 : ℚ) ^ (49 : ℤ) ≤ 2 ^ e :=
          zpow_le_zpow_right₀ (by norm_num) (by omega)
        have h49v : (2 : ℚ) ^ (49 : ℤ) = 562949953421312 := by norm_num
        rw [h49v] at h49
        linarith
      have hth : (1 : ℚ) / 2 < 1 / 20 * 2 ^ (52 - e) := by
        have h4 : (2 : ℚ) ^ (4 : ℤ) ≤ 2 ^ (52 - e) :=
          zpow_le_zpow_right₀ (by norm_num) (by omega)
        have h4v : (2 : ℚ) ^ (4 : ℤ) = 16 := by norm_num
        rw [h4v] at h4
        linarith
      obtain ⟨hlo, hhi⟩ := roundF_between q (N : ℤ) (1 / 20) hr1 hr2 hqhi53 hn hq2 hγ hth
      have hceil1 : ⌈roundF q⌉ = (N : ℤ) + 1 := by
        rw [Int.ceil_eq_iff]
        constructor
        · push_cast
          push_cast at hlo
          linarith
        · push_cast
          push_cast at hhi
          linarith
      have hceil2 : ⌈(sp : ℚ) / 20⌉ = (N : ℤ) + 1 := by
        rw [Int.ceil_eq_iff]
        constructor
        · push_cast
          rw [hspQeq]
          linarith
        · push_cast
          rw [hspQeq]
          linarith
      rw [hceil1, hceil2]

/-! ## Exactness of the integer amount computations (C4) -/

theorem bmod64_eq (x : Int) (h0 : 0 ≤ x) (h1 : x < 2 ^ 63) :
    Int.bmod x (2 ^ 64) = x := by
  unfold Int.bmod
  dsimp only
  rw [Int.emod_eq_of_lt h0 (by push_cast; omega)]
  rw [if_pos (by push_cast; omega)]

theorem i64_eq_self (n : Nat) (h : (n : Int) < 2 ^ 63) : i64 n = n :=
  bmod64_eq _ (by positivity) h

theorem u64sub_exact (x y : Nat) (hy : y ≤ x) (hx : x < 2 ^ 64) :
    u64sub x y = x - y := by
  unfold u64sub
  omega

theorem u64add_exact (x y : Nat) (h : x + y < 2 ^ 64) : u64add x y = x + y := by
  unfold u64add
  omega

theorem calcRequestAmount_exact (a : ℕ) (args : MagneticContractArgs)
    (ha : (a : Int) < 2 ^ 63) (hnum : 0 ≤ args.ratioNumerator)
    (hden : 1 ≤ args.ratioDenominator)
    (hprod : (a : Int) * args.ratioNumerator < 2 ^ 63) :
    (calcRequestAmount a args : Int) =
      (a : Int) * args.ratioNumerator / args.ratioDenominator := by
  unfold calcRequestAmount
  have hnn : (0 : Int) ≤ (a : Int) * args.ratioNumerator :=
    mul_nonneg (by positivity) hnum
  rw [i64_eq_self a ha]
  rw [show wrapMul64 (a : Int) args.ratioNumerator = (a : Int) * args.ratioNumerator from
    bmod64_eq _ hnn hprod]
  rw [Int.div_eq_ediv hnn (by omega)]
  have hq0 : 0 ≤ (a : Int) * args.ratioNumerator / args.ratioDenominator :=
    Int.ediv_nonneg hnn (by omega)
  have hqle : (a : Int) * args.ratioNumerator / args.ratioDenominator ≤
      (a : Int) * args.ratioNumerator := Int.ediv_le_self _ hnn
  rw [u64ofInt_eq_toNat _ hq0 (by omega)]
  exact Int.toNat_of_nonneg hq0

/-- C4 (amended): in the 64-bit-safe range — `offeredAmount * ratioNumerator`
below `2 ^ 63` for the request side, `receiveAmount * ratioDenominator` at
most `2 ^ 53` (with the numerator in `[1, 2 ^ 53]`) for the pay side —
`calcRequestAmount` is the exact floor and `CalcShouldPayAmount` the exact
ceiling of the respective ratio products.  Outside those ranges the `int64`
multiplication wraps and the `float64` arithmetic loses precision (see the
counterexample). -/
theorem amount_computations_exact (a r : ℕ) (argsA argsR : MagneticContractArgs)
    (ha : (a : Int) < 2 ^ 63) (hnumA : 0 ≤ argsA.ratioNumerator)
    (hdenA : 1 ≤ argsA.ratioDenominator)
    (hprodA : (a : Int) * argsA.ratioNumerator < 2 ^ 63)
    (hnum1 : 1 ≤ argsR.ratioNumerator) (hnum2 : argsR.ratioNumerator ≤ 2 ^ 53)
    (hdenR : 1 ≤ argsR.ratioDenominator)
    (hprodR : (r : Int) * argsR.ratioDenominator ≤ 2 ^ 53) :
    (calcRequestAmount a argsA : Int) =
        (a : Int) * argsA.ratioNumerator / argsA.ratioDenominator ∧
      (CalcShouldPayAmount r argsR : Int) =
        ⌈(r : ℚ) * (argsR.ratioDenominator : ℚ) / (argsR.ratioNumerator : ℚ)⌉ :=
  ⟨calcRequestAmount_exact a argsA ha hnumA hdenA hprodA,
    CalcShouldPayAmount_exact r argsR hnum1 hnum2 hdenR hprodR⟩

/-- C4 witness: a 2:1 request on 100 offered and a 1:2 pay on 50 received. -/
theorem amount_computations_exact_witness :
    (calcRequestAmount 100 ⟨1, 2, 1, .raw 0⟩ : Int) = (100 : Int) * 2 / 1 ∧
      (CalcShouldPayAmount 50 ⟨0, 2, 1, .raw 0⟩ : Int) = ⌈(50 : ℚ) * 1 / 2⌉ := by
  have h := amount_computations_exact 100 50 ⟨1, 2, 1, .raw 0⟩ ⟨0, 2, 1, .raw 0⟩
    (by norm_num) (by norm_num) (by norm_num) (by norm_num)
    (by norm_num) (by norm_num) (by norm_num) (by norm_num)
  simpa using h

/-- C4 counterexample: the `int64` multiplication in `calcRequestAmount`
wraps (`2 ^ 62 * 4` yields 0, not `2 ^ 64`), and the `float64` product in
`CalcShouldPayAmount` loses precision at `2 ^ 53 + 1` (the ceiling of
`(2 ^ 53 + 1) * 1 / 1` is `2 ^ 53 + 1`, the code returns `2 ^ 53`) — the
claim's unconditional exactness over the supported `uint64` amount range
fails. -/
theorem amount_computations_counterexample :
    calcRequestAmount 4611686018427387904 ⟨0, 4, 1, .raw 0⟩ = 0 ∧
      (4611686018427387904 : Int) * 4 / 1 = 18446744073709551616 ∧
      CalcShouldPayAmount 9007199254740993 ⟨0, 1, 1, .raw 0⟩ = 9007199254740992 ∧
      ⌈(9007199254740993 : ℚ) * 1 / 1⌉ = 9007199254740993 :=
  ⟨by decide, by decide, by decide, by norm_num⟩

/-! ## The fee validation predicate (C9) -/

theorem validate_ok_iff (ras : List AssetAmount) (fees : List (Nat × Nat)) :
    DefaultFeeStrategy.Validate ras fees = .ok () ↔
      ∀ ra ∈ ras, DefaultFeeStrategy.lookupFee fees ra.assetID ≤
        DefaultFeeStrategy.calcFeeAmount ra.amount false := by
  induction ras with
  | nil => simp [DefaultFeeStrategy.Validate]
  | cons ra rest ih =>
    unfold DefaultFeeStrategy.Validate
    by_cases h : DefaultFeeStrategy.calcFeeAmount ra.amount false <
        DefaultFeeStrategy.lookupFee fees ra.assetID
    · rw [if_pos h]
      constructor
      · intro hcontra
        exact absurd hcontra (by simp)
      · intro hall
        exact absurd (hall ra (by simp)) (by omega)
    · rw [if_neg h]
      rw [ih]
      constructor
      · intro hrest ra0 hmem
        rcases List.mem_cons.mp hmem with heq | hmem0
        · subst heq
          omega
        · exact hrest ra0 hmem0
      · intro hall ra0 hmem
        exact hall ra0 (by simp [hmem])

theorem validate_cases (ras : List AssetAmount) (fees : List (Nat × Nat)) :
    DefaultFeeStrategy.Validate ras fees = .ok () ∨
      DefaultFeeStrategy.Validate ras fees = .error "amount of fee is invalid" := by
  induction ras with
  | nil => left; rfl
  | cons ra rest ih =>
    unfold DefaultFeeStrategy.Validate
    by_cases h : DefaultFeeStrategy.calcFeeAmount ra.amount false <
        DefaultFeeStrategy.lookupFee fees ra.assetID
    · right
      rw [if_pos h]
    · rw [if_neg h]
      exact ih

/-- C9 (amended): `Validate` errors exactly when some leg's charged fee
strictly exceeds the `float64`-computed cap
`calcFeeAmount(receiveAmount, false)` (an absent entry counts as a zero
charge), and accepts otherwise.  The cap equals the exact
`ceil(receiveAmount * 3 / 10000)` only while `3 * receiveAmount ≤ 2 ^ 53`;
for larger amounts the `float64` rounding lowers it below the exact ceiling
(see the counterexample). -/
theorem validate_error_iff (ras : List AssetAmount) (fees : List (Nat × Nat)) :
    (DefaultFeeStrategy.Validate ras fees = .error "amount of fee is invalid" ↔
      ∃ ra ∈ ras, DefaultFeeStrategy.calcFeeAmount ra.amount false <
        DefaultFeeStrategy.lookupFee fees ra.assetID) ∧
    (DefaultFeeStrategy.Validate ras fees = .ok () ↔
      ∀ ra ∈ ras, DefaultFeeStrategy.lookupFee fees ra.assetID ≤
        DefaultFeeStrategy.calcFeeAmount ra.amount false) := by
  refine ⟨?_, validate_ok_iff ras fees⟩
  constructor
  · intro herr
    by_contra hno
    push_neg at hno
    have hok : DefaultFeeStrategy.Validate ras fees = .ok () :=
      (validate_ok_iff ras fees).mpr fun ra hra => by
        have := hno ra hra
        omega
    rw [hok] at herr
    exact absurd herr (by simp)
  · intro ⟨ra, hra, hlt⟩
    rcases validate_cases ras fees with hok | herr
    · have := (validate_ok_iff ras fees).mp hok ra hra
      omega
    · exact herr

/-- C9 counterexample: at `receiveAmount = 10 ^ 16 + 1` the exact taker cap
`ceil(amount * 3 / 10000)` is `3 * 10 ^ 12 + 1`, but the `float64`
computation yields `3 * 10 ^ 12`, so a charged fee equal to the exact cap —
which the claim says must be accepted — is rejected. -/
theorem validate_exact_cap_rejected_counterexample :
    ⌈(10000000000000001 : ℚ) * 3 / 10000⌉ = 3000000000001 ∧
      DefaultFeeStrategy.calcFeeAmount 10000000000000001 false = 3000000000000 ∧
      DefaultFeeStrategy.Validate [⟨1, 10000000000000001⟩] [(1, 3000000000001)] =
        .error "amount of fee is invalid" :=
  ⟨by decide, by decide, by rfl⟩

/-! ## Success condition of `NextMatchedTx` (C2) -/

/-- C2 (amended): `NextMatchedTx` succeeds exactly when the ring is valid,
every trade pair has a resting order, and the transaction builds — the
crossing predicate `canNotBeMatched` consulted by `HasMatchedTx` plays no
part, so a false `HasMatchedTx` (non-crossing resting orders) does not make
`NextMatchedTx` fail (see the counterexample). -/
theorem nextMatchedTx_ok_iff (e : Engine) (ps : List TradePair) :
    (∃ tx, (NextMatchedTx e ps).1 = .ok tx) ↔
      (validateTradePairs ps = .ok () ∧
        ∃ os, peekOrders e.orderTable ps = some os ∧ os ≠ [] ∧
          ∃ tx, buildMatchTx e.nodeProgram os = .ok tx) := by
  constructor
  · rintro ⟨tx, htx⟩
    unfold NextMatchedTx at htx
    split at htx
    · exact absurd htx (by simp)
    next u hv =>
      cases u
      split at htx
      · exact absurd htx (by simp)
      next os hp =>
        split at htx
        · exact absurd htx (by simp)
        next hemp =>
          split at htx
          · exact absurd htx (by simp)
          next tx0 hb =>
            exact ⟨hv, os, hp, fun hnil => hemp (by simp [hnil]), tx0, hb⟩
  · rintro ⟨hv, os, hp, hne, tx, hb⟩
    refine ⟨tx, ?_⟩
    unfold NextMatchedTx
    rw [hv]
    dsimp only
    rw [hp]
    dsimp only
    rw [if_neg (fun h => hne (by simpa using h))]
    rw [hb]
    dsimp only
    rcases hap : addPartialTradeOrder tx (ps.foldl PopOrder e.orderTable) with ⟨res, t2⟩
    have hok := addPartialTradeOrder_ok tx (ps.foldl PopOrder e.orderTable)
    rw [hap] at hok
    dsimp only at hok
    subst hok
    rfl

/-- The transaction `NextMatchedTx` builds from the non-crossing fixture
`engineW2` (two full trades at rate 2 plus fee and redistribution outputs). -/
def txW2 : TxData :=
  ⟨1,
    [⟨0, 100, 100, 0, progC, [0, 1]⟩, ⟨1, 100, 200, 1, progD, [1, 1]⟩],
    [⟨1, 50, .raw 10⟩, ⟨0, 50, .raw 11⟩,
      ⟨0, 5, .raw 99⟩, ⟨0, 22, .raw 10⟩, ⟨0, 23, .raw 11⟩,
      ⟨1, 5, .raw 99⟩, ⟨1, 22, .raw 10⟩, ⟨1, 23, .raw 11⟩],
    11⟩

/-- C2 counterexample: for the resting orders of `engineW2` the crossing
check makes `HasMatchedTx` false, yet `NextMatchedTx` succeeds and returns a
transaction — the claimed "if false then `NextMatchedTx` fails" direction
does not hold. -/
theorem noncrossing_still_builds_counterexample :
    HasMatchedTx engineW2 ring01 = false ∧
      (NextMatchedTx engineW2 ring01).1 = .ok txW2 :=
  ⟨by decide, by rfl⟩

/-! ## The continuation (re-order) output of a partial trade (C6) -/

/-- C6 (amended): on a partial trade (`shouldPayAmount < offeredAmount`) the
leg's second output — the continuation order — carries exactly
`offeredAmount - shouldPayAmount` of the offered asset under the order's own
locking script (hence the same recipient and ratio), and the order built
from it by `NewOrderFromOutput` has exactly that amount, the same script and
the script's ratio.  The continuation amount is strictly below the original
offered amount if and only if `shouldPayAmount` is positive — when
`shouldPayAmount = 0` (a zero receive amount) the continuation order equals
the original offer in full, so the claimed strict decrease fails (see the
counterexample). -/
theorem continuation_output (o opp : Order) (position : Nat)
    (args : MagneticContractArgs) (recv sp : Nat)
    (hdec : DecodeP2WMCProgram o.utxo.controlProgram = some args)
    (hrecv : recv = min (calcRequestAmount o.utxo.amount args) opp.utxo.amount)
    (hsp : sp = CalcShouldPayAmount recv args)
    (hamt : o.utxo.amount < 2 ^ 64)
    (hpart : sp < o.utxo.amount) :
    buildLeg o opp position = .ok
      (NewSpendInput (setMatchTxArguments true position recv) o.utxo.sourceID
        o.fromAssetID o.utxo.amount o.utxo.sourcePos o.utxo.controlProgram,
      [NewIntraChainOutput o.toAssetID recv args.sellerProgram,
        NewIntraChainOutput o.fromAssetID (o.utxo.amount - sp) o.utxo.controlProgram]) ∧
    (o.utxo.amount - sp < o.utxo.amount ↔ 0 < sp) ∧
    (∀ (tx : TxData) (idx : Nat),
      tx.outputs[idx]? = some (NewIntraChainOutput o.fromAssetID
        (o.utxo.amount - sp) o.utxo.controlProgram) →
      NewOrderFromOutput tx idx = .ok ⟨o.fromAssetID, args.requestedAsset,
        ⟨0, idx, o.utxo.amount - sp, o.utxo.controlProgram⟩,
        (args.ratioDenominator : ℚ) / (args.ratioNumerator : ℚ)⟩) := by
  refine ⟨?_, by omega, ?_⟩
  · unfold buildLeg
    rw [hdec]
    dsimp only
    rw [← hrecv, ← hsp, decide_eq_true hpart,
      u64sub_exact o.utxo.amount sp (by omega) hamt]
    rfl
  · intro tx idx hidx
    unfold NewOrderFromOutput
    rw [hidx]
    dsimp only [NewIntraChainOutput]
    rw [hdec]

/-- C6 witness: a 1:2 order over 100 units receiving 25 units pays 50 and
re-offers the remaining 50 — strictly less than 100. -/
theorem continuation_output_witness :
    buildLeg ⟨0, 1, ⟨7, 0, 100, .p2wmc 1 2 1 (.raw 10)⟩, 1 / 2⟩
        ⟨1, 0, ⟨8, 1, 25, .p2wmc 0 1 2 (.raw 11)⟩, 2⟩ 0 = .ok
      (NewSpendInput (setMatchTxArguments true 0 25) 7 0 100 0 (.p2wmc 1 2 1 (.raw 10)),
      [NewIntraChainOutput 1 25 (.raw 10),
        NewIntraChainOutput 0 (100 - 13) (.p2wmc 1 2 1 (.raw 10))]) ∧
    (100 - 13 < 100 ↔ 0 < 13) ∧
    (∀ (tx : TxData) (idx : Nat),
      tx.outputs[idx]? = some (NewIntraChainOutput 0 (100 - 13) (.p2wmc 1 2 1 (.raw 10))) →
      NewOrderFromOutput tx idx = .ok ⟨0, 1, ⟨0, idx, 100 - 13, .p2wmc 1 2 1 (.raw 10)⟩,
        (1 : ℚ) / (2 : ℚ)⟩) := by
  have h := continuation_output ⟨0, 1, ⟨7, 0, 100, .p2wmc 1 2 1 (.raw 10)⟩, 1 / 2⟩
    ⟨1, 0, ⟨8, 1, 25, .p2wmc 0 1 2 (.raw 11)⟩, 2⟩ 0 ⟨1, 2, 1, .raw 10⟩ 25 13
    rfl (by decide) (by decide) (by decide) (by decide)
  simpa using h

/-- The transaction `NextMatchedTx` builds from the amount-1 fixture
`engineW4`: both legs pay nothing and re-offer their full amount. -/
def txW4 : TxData :=
  ⟨1,
    [⟨0, 1, 100, 0, progG, [0, 0, 0]⟩, ⟨1, 1, 200, 1, progH, [0, 2, 0]⟩],
    [⟨1, 0, .raw 10⟩, ⟨0, 1, progG⟩, ⟨0, 0, .raw 11⟩, ⟨1, 1, progH⟩],
    7⟩

/-- C6 counterexample: with amount-1 orders at rate 2 both legs have
`shouldPayAmount = 0`, `NextMatchedTx` succeeds, and the continuation order
re-inserted for trade pair `0 -> 1` has amount 1 — equal to, not strictly
less than, the original offered amount 1. -/
theorem continuation_not_smaller_counterexample :
    (NextMatchedTx engineW4 ring01).1 = .ok txW4 ∧
      orderG.utxo.amount = 1 ∧
      ((NextMatchedTx engineW4 ring01).2 ⟨0, 1⟩).map (fun o => o.utxo.amount) = [1] :=
  ⟨by rfl, rfl, by decide⟩

/-! ## The remainder-redistribution loop and the fee chunk (C5) -/

theorem redistLoop_sum_full (a : Nat) (avg : Int) :
    ∀ (inputs : List TxInput) (rem : Int),
    (∀ inp ∈ inputs, (DecodeP2WMCProgram inp.controlProgram).isSome) →
    1 ≤ avg → 0 < rem → rem < 2 ^ 63 →
    ((inputs.length : Int) - 1) * avg < rem → inputs ≠ [] →
    ∃ outs, redistLoop a avg inputs rem = .ok outs ∧
      (outs.map (·.amount)).sum = rem.toNat ∧
      ∀ o ∈ outs, o.assetID = a := by
  intro inputs
  induction inputs with
  | nil =>
    intro rem _ _ _ _ _ hne
    exact absurd rfl hne
  | cons inp rest ih =>
    intro rem hdec havg hrem hrem63 hreach _
    obtain ⟨args, hargs⟩ : ∃ args, DecodeP2WMCProgram inp.controlProgram = some args := by
      have := hdec inp (by simp)
      cases hd : DecodeP2WMCProgram inp.controlProgram with
      | none => rw [hd] at this; simp at this
      | some x => exact ⟨x, rfl⟩
    by_cases hrestnil : rest = []
    · subst hrestnil
      refine ⟨[NewIntraChainOutput a (u64ofInt rem) args.sellerProgram], ?_, ?_, ?_⟩
      · simp only [redistLoop, if_neg (show ¬rem ≤ 0 by omega), hargs]
        rfl
      · simp only [List.map_cons, List.map_nil, List.sum_cons, List.sum_nil,
          NewIntraChainOutput]
        rw [u64ofInt_eq_toNat rem (by omega) (by omega)]
        omega
      · intro o ho
        simp only [List.mem_singleton] at ho
        subst ho
        rfl
    · have hlen1 : 1 ≤ (rest.length : Int) := by
        cases rest with
        | nil => exact absurd rfl hrestnil
        | cons x xs => simp only [List.length_cons]; push_cast; omega
      have hlencons : (((inp :: rest).length : Int) - 1) = (rest.length : Int) := by
        simp
      rw [hlencons] at hreach
      have havgle : avg ≤ (rest.length : Int) * avg := le_mul_of_one_le_left (by omega) hlen1
      have hrem' : 0 < rem - avg := by omega
      obtain ⟨outs, houts, hsum, hassets⟩ := ih (rem - avg)
        (fun x hx => hdec x (by simp [hx])) havg hrem' (by omega)
        (by nlinarith) hrestnil
      have hempty : rest.isEmpty = false := by
        cases rest with
        | nil => exact absurd rfl hrestnil
        | cons x xs => rfl
      refine ⟨NewIntraChainOutput a (u64ofInt avg) args.sellerProgram :: outs, ?_, ?_, ?_⟩
      · simp only [redistLoop, if_neg (show ¬rem ≤ 0 by omega), hargs, houts, hempty]
        rfl
      · simp only [List.map_cons, List.sum_cons, NewIntraChainOutput]
        rw [u64ofInt_eq_toNat avg (by omega) (by omega), hsum]
        omega
      · intro o ho
        rcases List.mem_cons.mp ho with heq | hmem
        · subst heq
          rfl
        · exact hassets o hmem

theorem redistLoop_sum_small (a : Nat) :
    ∀ (inputs : List TxInput) (rem : Int),
    (∀ inp ∈ inputs, (DecodeP2WMCProgram inp.controlProgram).isSome) →
    rem < (inputs.length : Int) →
    ∃ outs, redistLoop a 1 inputs rem = .ok outs ∧
      (outs.map (·.amount)).sum = rem.toNat ∧
      ∀ o ∈ outs, o.assetID = a := by
  intro inputs
  induction inputs with
  | nil =>
    intro rem _ hlt
    refine ⟨[], rfl, ?_, by simp⟩
    simp only [List.length_nil, Nat.cast_zero] at hlt
    simp only [List.map_nil, List.sum_nil]
    omega
  | cons inp rest ih =>
    intro rem hdec hlt
    by_cases hr0 : rem ≤ 0
    · refine ⟨[], ?_, ?_, by simp⟩
      · simp only [redistLoop, if_pos hr0]
      · simp only [List.map_nil, List.sum_nil]
        omega
    · obtain ⟨args, hargs⟩ : ∃ args, DecodeP2WMCProgram inp.controlProgram = some args := by
        have := hdec inp (by simp)
        cases hd : DecodeP2WMCProgram inp.controlProgram with
        | none => rw [hd] at this; simp at this
        | some x => exact ⟨x, rfl⟩
      have hltrest : rem - 1 < (rest.length : Int) := by
        simp only [List.length_cons] at hlt
        push_cast at hlt
        omega
      have hrestne : rest ≠ [] := by
        intro h
        subst h
        simp only [List.length_cons, List.length_nil] at hlt
        push_cast at hlt
        omega
      have hempty : rest.isEmpty = false := by
        cases rest with
        | nil => exact absurd rfl hrestne
        | cons x xs => rfl
      obtain ⟨outs, houts, hsum, hassets⟩ := ih (rem - 1)
        (fun x hx => hdec x (by simp [hx])) hltrest
      refine ⟨NewIntraChainOutput a (u64ofInt 1) args.sellerProgram :: outs, ?_, ?_, ?_⟩
      · simp only [redistLoop, if_neg hr0, hargs, houts, hempty]
        rfl
      · simp only [List.map_cons, List.sum_cons, NewIntraChainOutput]
        rw [show u64ofInt 1 = 1 from rfl, hsum]
        omega
      · intro o ho
        rcases List.mem_cons.mp ho with heq | hmem
        · subst heq
          rfl
        · exact hassets o hmem

/-- The outputs appended for one fee-map entry with a non-negative payable
amount: the protocol-fee output holds `min payable maxFee` and the
redistribution outputs sum exactly to the excess `payable - min payable
maxFee`, all carrying the entry's asset. -/
theorem feeChunk_spec (nodeProgram : Program) (inputs : List TxInput) (a : Nat)
    (fa : feeAmount)
    (hdec : ∀ inp ∈ inputs, (DecodeP2WMCProgram inp.controlProgram).isSome)
    (hne : inputs ≠ [])
    (hmax : 0 ≤ fa.maxFeeAmount)
    (hpay0 : 0 ≤ fa.payableFeeAmount) (hpay1 : fa.payableFeeAmount < 2 ^ 63) :
    ∃ rest, feeChunk nodeProgram inputs (a, fa) =
        .ok (NewIntraChainOutput a
          (u64ofInt (min fa.payableFeeAmount fa.maxFeeAmount)) nodeProgram :: rest) ∧
      (rest.map (·.amount)).sum =
        (fa.payableFeeAmount - min fa.payableFeeAmount fa.maxFeeAmount).toNat ∧
      ∀ o ∈ rest, o.assetID = a := by
  have hlen1 : 1 ≤ (inputs.length : Int) := by
    cases inputs with
    | nil => exact absurd rfl hne
    | cons x xs => simp only [List.length_cons]; push_cast; omega
  unfold feeChunk
  dsimp only
  by_cases hcap : fa.maxFeeAmount < fa.payableFeeAmount
  · simp only [if_pos hcap]
    have hminv : min fa.payableFeeAmount fa.maxFeeAmount = fa.maxFeeAmount := by omega
    rw [hminv]
    set rem : Int := fa.payableFeeAmount - fa.maxFeeAmount with hremdef
    have hrem0 : 0 < rem := by omega
    have hrem63 : rem < 2 ^ 63 := by omega
    by_cases havg0 : Int.tdiv rem (inputs.length : Int) = 0
    · rw [if_pos havg0]
      have hremlt : rem < (inputs.length : Int) := by
        by_contra hge
        push_neg at hge
        have h1 : (1 : Int) ≤ rem / (inputs.length : Int) :=
          (Int.le_ediv_iff_mul_le (by omega)).mpr (by omega)
        rw [Int.div_eq_ediv (by omega) (by omega)] at havg0
        omega
      obtain ⟨outs, houts, hsum, hassets⟩ :=
        redistLoop_sum_small a inputs rem hdec hremlt
      refine ⟨outs, ?_, hsum, hassets⟩
      rw [houts]
    · rw [if_neg havg0]
      have htdiv : Int.tdiv rem (inputs.length : Int) = rem / (inputs.length : Int) :=
        Int.div_eq_ediv (by omega) (by omega)
      have havgpos : 1 ≤ Int.tdiv rem (inputs.length : Int) := by
        rw [htdiv]
        have h0 : 0 ≤ rem / (inputs.length : Int) := Int.ediv_nonneg (by omega) (by omega)
        rw [htdiv] at havg0
        omega
      have hmulle : (inputs.length : Int) * (rem / (inputs.length : Int)) ≤ rem := by
        have := Int.ediv_add_emod rem (inputs.length : Int)
        have hm := Int.emod_nonneg rem (show (inputs.length : Int) ≠ 0 by omega)
        omega
      have hreach : ((inputs.length : Int) - 1) * Int.tdiv rem (inputs.length : Int) < rem := by
        rw [htdiv]
        have h1 : 1 ≤ rem / (inputs.length : Int) := by
          rw [← htdiv]
          exact havgpos
        nlinarith
      obtain ⟨outs, houts, hsum, hassets⟩ :=
        redistLoop_sum_full a (Int.tdiv rem (inputs.length : Int)) inputs rem hdec
          havgpos hrem0 hrem63 hreach hne
      refine ⟨outs, ?_, hsum, hassets⟩
      rw [houts]
  · simp only [if_neg hcap]
    have hminv : min fa.payableFeeAmount fa.maxFeeAmount = fa.payableFeeAmount := by omega
    rw [hminv]
    have htdiv0 : Int.tdiv 0 (inputs.length : Int) = 0 := by
      rw [Int.div_eq_ediv (by omega) (by omega)]
      exact Int.zero_ediv _
    rw [if_pos htdiv0]
    obtain ⟨outs, houts, hsum, hassets⟩ :=
      redistLoop_sum_small a inputs 0 hdec (by omega)
    refine ⟨outs, ?_, ?_, hassets⟩
    · rw [houts]
    · rw [hsum]
      simp

/-- C5 (amended): for a fee-map entry whose payable amount is non-negative
(and below `2 ^ 63`), over a non-empty list of decodable inputs, the
protocol-fee output holds `min payable (CalcMaxFeeAmount sp)` — never more
than the exact `ceil(shouldPayAmount / 20)` when `sp ≤ 2 ^ 53` — and the
remainder-redistribution outputs sum exactly to `payable - cappedFee`, all
on the entry's asset.  For a negative payable amount the `uint64` cast of
the fee wraps and the cap is breached (see the counterexample). -/
theorem fee_cap_and_redistribution (nodeProgram : Program) (inputs : List TxInput)
    (a sp : Nat) (payable : Int)
    (hsp : sp ≤ 2 ^ 53)
    (hdec : ∀ inp ∈ inputs, (DecodeP2WMCProgram inp.controlProgram).isSome)
    (hne : inputs ≠ [])
    (hpay0 : 0 ≤ payable) (hpay1 : payable < 2 ^ 63) :
    ∃ rest, feeChunk nodeProgram inputs (a, ⟨CalcMaxFeeAmount sp, payable⟩) =
        .ok (NewIntraChainOutput a (u64ofInt (min payable (CalcMaxFeeAmount sp)))
          nodeProgram :: rest) ∧
      (u64ofInt (min payable (CalcMaxFeeAmount sp)) : Int) ≤ ⌈(sp : ℚ) / 20⌉ ∧
      (rest.map (·.amount)).sum = (payable - min payable (CalcMaxFeeAmount sp)).toNat ∧
      ∀ o ∈ rest, o.assetID = a := by
  have hmax0 : 0 ≤ CalcMaxFeeAmount sp := CalcMaxFeeAmount_nonneg sp
  have hmaxeq : CalcMaxFeeAmount sp = ⌈(sp : ℚ) / 20⌉ := CalcMaxFeeAmount_exact sp hsp
  obtain ⟨rest, hchunk, hsum, hassets⟩ := feeChunk_spec nodeProgram inputs a
    ⟨CalcMaxFeeAmount sp, payable⟩ hdec hne hmax0 hpay0 hpay1
  refine ⟨rest, hchunk, ?_, hsum, hassets⟩
  have hmin0 : 0 ≤ min payable (CalcMaxFeeAmount sp) := by omega
  have hminlt : min payable (CalcMaxFeeAmount sp) < 2 ^ 64 := by omega
  rw [u64ofInt_eq_toNat _ hmin0 hminlt, Int.toNat_of_nonneg hmin0, ← hmaxeq]
  omega

/-- C5 witness: one decodable input, `shouldPay = 50` (cap 3), payable 7:
the fee output is capped at 3 and the excess 4 goes back to the seller. -/
theorem fee_cap_and_redistribution_witness :
    ∃ rest, feeChunk (.raw 99) [⟨0, 100, 100, 0, progE, []⟩] (0, ⟨CalcMaxFeeAmount 50, 7⟩) =
        .ok (NewIntraChainOutput 0 (u64ofInt (min 7 (CalcMaxFeeAmount 50)))
          (.raw 99) :: rest) ∧
      (u64ofInt (min 7 (CalcMaxFeeAmount 50)) : Int) ≤ ⌈(50 : ℚ) / 20⌉ ∧
      (rest.map (·.amount)).sum = ((7 : Int) - min 7 (CalcMaxFeeAmount 50)).toNat ∧
      ∀ o ∈ rest, o.assetID = 0 :=
  fee_cap_and_redistribution (.raw 99) [⟨0, 100, 100, 0, progE, []⟩] 0 50 7
    (by norm_num) (by decide) (by decide) (by norm_num) (by norm_num)

/-- The transaction built from `engineW3`: a partial first leg whose
re-order output makes asset 0's payable fee negative; the `uint64` cast of
that fee produces the `2 ^ 64 - 50` output to the node program. -/
def txW3 : TxData :=
  ⟨1,
    [⟨0, 100, 100, 0, progE, [100, 0, 0]⟩, ⟨1, 100, 200, 1, progF, [2, 1]⟩],
    [⟨1, 100, .raw 10⟩, ⟨0, 50, progE⟩, ⟨0, 100, .raw 11⟩,
      ⟨0, 18446744073709551566, .raw 99⟩],
    7⟩

/-- C5 counterexample: in the transaction `NextMatchedTx` builds from
`engineW3` the fee output of asset 0 holds `2 ^ 64 - 50` — the negative
payable fee cast to `uint64` — which exceeds the claimed cap
`CalcMaxFeeAmount 50 = 3 = ceil(shouldPay * 0.05)` for that leg. -/
theorem fee_cap_violated_counterexample :
    (NextMatchedTx engineW3 ring01).1 = .ok txW3 ∧
      txW3.outputs[3]? = some ⟨0, 18446744073709551566, .raw 99⟩ ∧
      CalcShouldPayAmount 100 ⟨1, 2, 1, .raw 10⟩ = 50 ∧
      CalcMaxFeeAmount 50 = 3 ∧
      ¬((18446744073709551566 : Int) ≤ CalcMaxFeeAmount 50) :=
  ⟨by rfl, by decide, by decide, by decide, by decide⟩

/-- C1 counterexample: the transaction `NextMatchedTx` builds from
`engineW3` does not conserve asset 0: the inputs carry 100 units but the
outputs carry `100 + 50 + (2 ^ 64 - 100)` units, because the negative
payable fee of the asset is cast to `uint64` in the fee output. -/
theorem conservation_violated_counterexample :
    (NextMatchedTx engineW3 ring01).1 = .ok txW3 ∧
      assetInSum txW3 0 = 100 ∧
      assetOutSum txW3 0 = 18446744073709551716 :=
  ⟨by rfl, by decide, by decide⟩

/-! ## Per-asset sums and the payable-fee characterization (C1) -/

/-- Sum of the amounts of the inputs of one asset. -/
def inSumN (inputs : List TxInput) (a : Nat) : Nat :=
  ((inputs.filter fun i => i.assetID == a).map (·.amount)).sum

/-- Sum of the amounts of the outputs of one asset. -/
def outSumN (outs : List TxOutput) (a : Nat) : Nat :=
  ((outs.filter fun o => o.assetID == a).map (·.amount)).sum

/-- `inSumN` through the `int64` cast of each amount. -/
def inSumI (inputs : List TxInput) (a : Nat) : Int :=
  ((inputs.filter fun i => i.assetID == a).map fun i => i64 i.amount).sum

/-- `outSumN` through the `int64` cast of each amount. -/
def outSumI (outs : List TxOutput) (a : Nat) : Int :=
  ((outs.filter fun o => o.assetID == a).map fun o => i64 o.amount).sum

/-- The part of `outSumI` contributed by P2WMC (re-order) outputs. -/
def outSumP (outs : List TxOutput) (a : Nat) : Int :=
  ((outs.filter fun o => IsP2WMCScript o.controlProgram && o.assetID == a).map
    fun o => i64 o.amount).sum

/-- The part of `outSumI` contributed by non-P2WMC (receive) outputs. -/
def outSumNP (outs : List TxOutput) (a : Nat) : Int :=
  (((outs.filter fun o => !IsP2WMCScript o.controlProgram).filter
    fun o => o.assetID == a).map fun o => i64 o.amount).sum

/-- The receive output `CalcFeeFromMatchedTx` associates with an input via a
receive-output map. -/
def receiveOfR (recv : List (Program × TxOutput)) (inp : TxInput) : Option TxOutput :=
  (DecodeP2WMCProgram inp.controlProgram).bind fun args => recv.lookup args.sellerProgram

/-- The receive-output map of a transaction's outputs. -/
def recvMap (outputs : List TxOutput) : List (Program × TxOutput) :=
  (outputPass outputs (fun _ => 0) []).2

/-- Sum of the `int64` amounts of the receive outputs matched to the inputs,
restricted to one asset. -/
def recvSumI (recv : List (Program × TxOutput)) (inputs : List TxInput) (a : Nat) : Int :=
  (((inputs.filterMap (receiveOfR recv)).filter fun o => o.assetID == a).map
    fun o => i64 o.amount).sum

theorem inSumN_cons (i : TxInput) (rest : List TxInput) (a : Nat) :
    inSumN (i :: rest) a = (if i.assetID = a then i.amount else 0) + inSumN rest a := by
  unfold inSumN
  by_cases h : i.assetID = a <;> simp [List.filter_cons, h]

theorem outSumN_cons (o : TxOutput) (rest : List TxOutput) (a : Nat) :
    outSumN (o :: rest) a = (if o.assetID = a then o.amount else 0) + outSumN rest a := by
  unfold outSumN
  by_cases h : o.assetID = a <;> simp [List.filter_cons, h]

theorem inSumI_cons (i : TxInput) (rest : List TxInput) (a : Nat) :
    inSumI (i :: rest) a = (if i.assetID = a then i64 i.amount else 0) + inSumI rest a := by
  unfold inSumI
  rw [List.filter_cons]
  by_cases h : i.assetID = a
  · rw [if_pos (by simpa using h), if_pos h, List.map_cons, List.sum_cons]
  · rw [if_neg (by simpa using h), if_neg h]
    omega

theorem outSumI_cons (o : TxOutput) (rest : List TxOutput) (a : Nat) :
    outSumI (o :: rest) a = (if o.assetID = a then i64 o.amount else 0) + outSumI rest a := by
  unfold outSumI
  rw [List.filter_cons]
  by_cases h : o.assetID = a
  · rw [if_pos (by simpa using h), if_pos h, List.map_cons, List.sum_cons]
  · rw [if_neg (by simpa using h), if_neg h]
    omega

theorem outSumP_cons (o : TxOutput) (rest : List TxOutput) (a : Nat) :
    outSumP (o :: rest) a =
      (if IsP2WMCScript o.controlProgram ∧ o.assetID = a then i64 o.amount else 0) +
        outSumP rest a := by
  unfold outSumP
  rw [List.filter_cons]
  by_cases hp : IsP2WMCScript o.controlProgram <;> by_cases ha : o.assetID = a
  · rw [if_pos (by simp [hp, ha]), if_pos ⟨hp, ha⟩, List.map_cons, List.sum_cons]
  · rw [if_neg (by simp [hp, ha]), if_neg (by tauto)]
    omega
  · rw [if_neg (by simp [hp]), if_neg (by tauto)]
    omega
  · rw [if_neg (by simp [hp]), if_neg (by tauto)]
    omega

theorem outSumNP_cons (o : TxOutput) (rest : List TxOutput) (a : Nat) :
    outSumNP (o :: rest) a =
      (if ¬IsP2WMCScript o.controlProgram ∧ o.assetID = a then i64 o.amount else 0) +
        outSumNP rest a := by
  unfold outSumNP
  rw [List.filter_cons]
  by_cases hp : IsP2WMCScript o.controlProgram <;> by_cases ha : o.assetID = a
  · rw [if_neg (by simp [hp]), if_neg (by tauto)]
    omega
  · rw [if_neg (by simp [hp]), if_neg (by tauto)]
    omega
  · rw [if_pos (by simp [hp]), List.filter_cons, if_pos (by simpa using ha),
      if_pos ⟨hp, ha⟩, List.map_cons, List.sum_cons]
  · rw [if_pos (by simp [hp]), List.filter_cons, if_neg (by simpa using ha),
      if_neg (by tauto)]
    omega

theorem outSum_partition (outs : List TxOutput) (a : Nat) :
    outSumP outs a + outSumNP outs a = outSumI outs a := by
  induction outs with
  | nil => rfl
  | cons o rest ih =>
    rw [outSumP_cons, outSumNP_cons, outSumI_cons]
    by_cases hp : IsP2WMCScript o.controlProgram <;> by_cases ha : o.assetID = a
    · rw [if_pos ⟨hp, ha⟩, if_neg (by tauto), if_pos ha]
      omega
    · rw [if_neg (by tauto), if_neg (by tauto), if_neg ha]
      omega
    · rw [if_neg (by tauto), if_pos ⟨hp, ha⟩, if_pos ha]
      omega
    · rw [if_neg (by tauto), if_neg (by tauto), if_neg ha]
      omega

theorem outputPass_pay (outs : List TxOutput) : ∀ (pay : Nat → Int)
    (recv : List (Program × TxOutput)) (a : Nat),
    (outputPass outs pay recv).1 a = pay a - outSumP outs a := by
  induction outs with
  | nil =>
    intro pay recv a
    show pay a = pay a - outSumP [] a
    show pay a = pay a - 0
    omega
  | cons o rest ih =>
    intro pay recv a
    by_cases hp : IsP2WMCScript o.controlProgram
    · simp only [outputPass]
      rw [if_pos hp, ih, outSumP_cons]
      by_cases ha : o.assetID = a
      · rw [if_pos ha.symm, if_pos ⟨hp, ha⟩]
        omega
      · rw [if_neg (fun h => ha h.symm), if_neg (fun h => ha h.2)]
        omega
    · simp only [outputPass]
      rw [if_neg hp, ih, outSumP_cons, if_neg (fun h => hp h.1)]
      omega

theorem inputPass_spec (recv : List (Program × TxOutput)) :
    ∀ (inputs : List TxInput) (pay mx : Nat → Int),
    (∀ inp ∈ inputs, (receiveOfR recv inp).isSome) →
    ∃ pay2 mx2, inputPass recv inputs pay mx = .ok (pay2, mx2) ∧
      (∀ a, pay2 a = pay a + inSumI inputs a - recvSumI recv inputs a) ∧
      ((∀ a, 0 ≤ mx a) → ∀ a, 0 ≤ mx2 a) := by
  intro inputs
  induction inputs with
  | nil =>
    intro pay mx _
    refine ⟨pay, mx, rfl, ?_, fun h => h⟩
    intro a
    show pay a = pay a + inSumI [] a - recvSumI recv [] a
    show pay a = pay a + 0 - recvSumI recv [] a
    show pay a = pay a + 0 - 0
    omega
  | cons inp rest ih =>
    intro pay mx hok
    have h0 := hok inp (by simp)
    obtain ⟨args, hargs⟩ : ∃ args, DecodeP2WMCProgram inp.controlProgram = some args := by
      cases hd : DecodeP2WMCProgram inp.controlProgram with
      | none => rw [receiveOfR, hd] at h0; simp at h0
      | some x => exact ⟨x, rfl⟩
    obtain ⟨out, hlk⟩ : ∃ out, recv.lookup args.sellerProgram = some out := by
      cases hl : recv.lookup args.sellerProgram with
      | none => rw [receiveOfR, hargs] at h0; simp [hl] at h0
      | some x => exact ⟨x, rfl⟩
    have hrecvOf : receiveOfR recv inp = some out := by
      rw [receiveOfR, hargs]
      exact hlk
    obtain ⟨pay2, mx2, hrec, hpay, hmx⟩ := ih
      (fun b => if b = out.assetID then
        (if b = inp.assetID then pay b + i64 inp.amount else pay b) - i64 out.amount
        else (if b = inp.assetID then pay b + i64 inp.amount else pay b))
      (fun b => if b = inp.assetID then
        CalcMaxFeeAmount (CalcShouldPayAmount out.amount args) else mx b)
      (fun x hx => hok x (by simp [hx]))
    refine ⟨pay2, mx2, ?_, ?_, ?_⟩
    · show (match DecodeP2WMCProgram inp.controlProgram with
        | none => .error "not P2WMC script"
        | some contractArgs => _) = Except.ok (pay2, mx2)
      rw [hargs]
      dsimp only
      rw [hlk]
      exact hrec
    · intro a
      rw [hpay a]
      have hfm : (inp :: rest).filterMap (receiveOfR recv) =
          out :: rest.filterMap (receiveOfR recv) := by
        rw [List.filterMap_cons, hrecvOf]
      have hrs : recvSumI recv (inp :: rest) a =
          (if out.assetID = a then i64 out.amount else 0) + recvSumI recv rest a := by
        unfold recvSumI
        rw [hfm, List.filter_cons]
        by_cases h : out.assetID = a
        · rw [if_pos (by simpa using h), if_pos h, List.map_cons, List.sum_cons]
        · rw [if_neg (by simpa using h), if_neg h]
          omega
      rw [hrs, inSumI_cons]
      by_cases h1 : a = inp.assetID <;> by_cases h2 : a = out.assetID
      · rw [if_pos h2, if_pos h1, if_pos h1.symm, if_pos h2.symm]
        omega
      · rw [if_neg h2, if_pos h1, if_pos h1.symm, if_neg (fun h => h2 h.symm)]
        omega
      · rw [if_pos h2, if_neg h1, if_neg (fun h => h1 h.symm), if_pos h2.symm]
        omega
      · rw [if_neg h2, if_neg h1, if_neg (fun h => h1 h.symm), if_neg (fun h => h2 h.symm)]
        omega
    · intro hmx0
      apply hmx
      intro a
      by_cases h : a = inp.assetID
      · rw [if_pos h]
        exact CalcMaxFeeAmount_nonneg _
      · rw [if_neg h]
        exact hmx0 a

theorem inSumI_eq (inputs : List TxInput) (a : Nat)
    (h : ∀ i ∈ inputs, (i.amount : Int) < 2 ^ 63) :
    inSumI inputs a = (inSumN inputs a : Int) := by
  induction inputs with
  | nil => rfl
  | cons i rest ih =>
    rw [inSumI_cons, inSumN_cons, i64_eq_self i.amount (h i (by simp)),
      ih (fun x hx => h x (by simp [hx]))]
    by_cases hh : i.assetID = a
    · rw [if_pos hh, if_pos hh]
      push_cast
      ring
    · rw [if_neg hh, if_neg hh]
      push_cast
      ring

theorem outSumI_eq (outs : List TxOutput) (a : Nat)
    (h : ∀ o ∈ outs, (o.amount : Int) < 2 ^ 63) :
    outSumI outs a = (outSumN outs a : Int) := by
  induction outs with
  | nil => rfl
  | cons o rest ih =>
    rw [outSumI_cons, outSumN_cons, i64_eq_self o.amount (h o (by simp)),
      ih (fun x hx => h x (by simp [hx]))]
    by_cases hh : o.assetID = a
    · rw [if_pos hh, if_pos hh]
      push_cast
      ring
    · rw [if_neg hh, if_neg hh]
      push_cast
      ring

theorem inSumN_le (inputs : List TxInput) (a : Nat) :
    inSumN inputs a ≤ (inputs.map (·.amount)).sum := by
  induction inputs with
  | nil => exact le_refl 0
  | cons i rest ih =>
    rw [inSumN_cons, List.map_cons, List.sum_cons]
    by_cases h : i.assetID = a
    · rw [if_pos h]
      omega
    · rw [if_neg h]
      omega

theorem inSumN_eq_zero (inputs : List TxInput) (a : Nat)
    (h : a ∉ inputs.map (·.assetID)) : inSumN inputs a = 0 := by
  induction inputs with
  | nil => rfl
  | cons i rest ih =>
    rw [List.map_cons] at h
    rw [inSumN_cons,
      if_neg (fun he => h (by rw [← he]; exact List.mem_cons_self _ _)),
      ih (fun hm => h (List.mem_cons_of_mem _ hm))]

theorem outSumN_eq_zero (outs : List TxOutput) (a : Nat)
    (h : ∀ o ∈ outs, o.assetID ≠ a) : outSumN outs a = 0 := by
  induction outs with
  | nil => rfl
  | cons o rest ih =>
    rw [outSumN_cons, if_neg (h o (by simp)), ih (fun x hx => h x (by simp [hx]))]

theorem outSumN_append (l1 l2 : List TxOutput) (a : Nat) :
    outSumN (l1 ++ l2) a = outSumN l1 a + outSumN l2 a := by
  unfold outSumN
  rw [List.filter_append, List.map_append, List.sum_append]

theorem outSumN_const_asset (l : List TxOutput) (b c : Nat)
    (h : ∀ o ∈ l, o.assetID = c) :
    outSumN l b = if c = b then (l.map (·.amount)).sum else 0 := by
  induction l with
  | nil =>
    by_cases hcb : c = b <;> simp [outSumN, hcb]
  | cons o rest ih =>
    rw [outSumN_cons, List.map_cons, List.sum_cons, h o (by simp),
      ih (fun x hx => h x (by simp [hx]))]
    by_cases hcb : c = b
    · rw [if_pos hcb, if_pos hcb, if_pos hcb]
    · rw [if_neg hcb, if_neg hcb, if_neg hcb]

theorem filter_beq_of_nodup (l : List Nat) (hl : l.Nodup) (b : Nat) :
    l.filter (fun a => a == b) = if b ∈ l then [b] else [] := by
  induction l with
  | nil => simp
  | cons x xs ih =>
    rw [List.filter_cons]
    rcases List.nodup_cons.mp hl with ⟨hx, hxs⟩
    by_cases hxb : x = b
    · subst hxb
      rw [if_pos (by simp), if_pos (by simp)]
      have hnil : xs.filter (fun a => a == x) = [] :=
        List.filter_eq_nil_iff.mpr fun a ha hax => hx ((by simpa using hax) ▸ ha)
      rw [ih hxs]
      rw [if_neg (fun hmem => hx hmem)]
    · rw [if_neg (by simpa using hxb), ih hxs]
      by_cases hbxs : b ∈ xs
      · rw [if_pos hbxs, if_pos (by simp [hbxs])]
      · rw [if_neg hbxs, if_neg (show ¬b ∈ x :: xs from fun hm => by
          rcases List.mem_cons.mp hm with he | hm2
          · exact hxb he.symm
          · exact hbxs hm2)]

theorem feeChunks_spec (nodeProgram : Program) (inputs : List TxInput)
    (pay2 mx2 : Nat → Int)
    (hdec : ∀ inp ∈ inputs, (DecodeP2WMCProgram inp.controlProgram).isSome)
    (hne : inputs ≠ []) :
    ∀ ks : List Nat, (∀ a ∈ ks, 0 ≤ pay2 a ∧ pay2 a < 2 ^ 63 ∧ 0 ≤ mx2 a) →
    ∃ chunks : List (List TxOutput),
      (ks.map fun a => (a, (⟨mx2 a, pay2 a⟩ : feeAmount))).mapM
        (feeChunk nodeProgram inputs) = .ok chunks ∧
      ∀ b, outSumN chunks.flatten b =
        ((ks.filter fun a => a == b).map fun a => (pay2 a).toNat).sum := by
  intro ks
  induction ks with
  | nil =>
    intro _
    refine ⟨[], rfl, fun b => ?_⟩
    simp [outSumN]
  | cons a rest ih =>
    intro hb
    obtain ⟨ha0, ha1, ha2⟩ := hb a (by simp)
    obtain ⟨chunks, hchunks, hsum⟩ := ih (fun x hx => hb x (by simp [hx]))
    obtain ⟨restOuts, hchunk, hrsum, hrassets⟩ := feeChunk_spec nodeProgram inputs a
      ⟨mx2 a, pay2 a⟩ hdec hne ha2 ha0 ha1
    dsimp only at hrsum
    refine ⟨(NewIntraChainOutput a (u64ofInt (min (pay2 a) (mx2 a))) nodeProgram ::
      restOuts) :: chunks, ?_, ?_⟩
    · rw [List.map_cons, List.mapM_cons, hchunk, hchunks]
      rfl
    · intro b
      have hall : ∀ o ∈ (NewIntraChainOutput a (u64ofInt (min (pay2 a) (mx2 a)))
          nodeProgram :: restOuts), o.assetID = a := by
        intro o ho
        rcases List.mem_cons.mp ho with he | hm
        · subst he
          rfl
        · exact hrassets o hm
      rw [List.flatten_cons, outSumN_append, hsum b, List.filter_cons,
        outSumN_const_asset _ b a hall]
      by_cases hab : a = b
      · rw [if_pos hab, if_pos (by simpa using hab), List.map_cons, List.sum_cons,
          List.map_cons, List.sum_cons, hrsum,
          u64ofInt_eq_toNat _ (by omega) (by omega)]
        dsimp only [NewIntraChainOutput]
        omega
      · rw [if_neg hab, if_neg (by simpa using hab)]
        omega

/-- The conservation core (C1): appending the fee and redistribution outputs
to a transaction whose inputs all decode, whose receive outputs match its
inputs one-to-one, whose per-asset output totals never exceed the input
totals, and whose output assets all occur among the input assets, yields a
transaction that conserves every asset exactly. -/
theorem addMatchTxFeeOutput_conserves (nodeProgram : Program)
    (inputs : List TxInput) (outputs : List TxOutput)
    (hok : ∀ inp ∈ inputs, (receiveOfR (recvMap outputs) inp).isSome)
    (hperm : (inputs.filterMap (receiveOfR (recvMap outputs))).Perm
      (outputs.filter fun o => !IsP2WMCScript o.controlProgram))
    (hne : inputs ≠ [])
    (htotIn : (inputs.map (·.amount)).sum < 2 ^ 63)
    (htotOut : (outputs.map (·.amount)).sum < 2 ^ 63)
    (hpos : ∀ a ∈ inputs.map (·.assetID), outSumN outputs a ≤ inSumN inputs a)
    (hassets : ∀ o ∈ outputs, o.assetID ∈ inputs.map (·.assetID)) :
    ∃ tx', addMatchTxFeeOutput nodeProgram ⟨1, inputs, outputs, 0⟩ = .ok tx' ∧
      tx'.inputs = inputs ∧ ∀ a, inSumN inputs a = outSumN tx'.outputs a := by
  have hin63 : ∀ i ∈ inputs, (i.amount : Int) < 2 ^ 63 := by
    intro i hi
    have h1 : i.amount ≤ (inputs.map (·.amount)).sum :=
      List.single_le_sum (fun x _ => Nat.zero_le x) _ (List.mem_map_of_mem _ hi)
    omega
  have hout63 : ∀ o ∈ outputs, (o.amount : Int) < 2 ^ 63 := by
    intro o ho
    have h1 : o.amount ≤ (outputs.map (·.amount)).sum :=
      List.single_le_sum (fun x _ => Nat.zero_le x) _ (List.mem_map_of_mem _ ho)
    omega
  have hdec : ∀ inp ∈ inputs, (DecodeP2WMCProgram inp.controlProgram).isSome := by
    intro inp hi
    have h0 := hok inp hi
    cases hd : DecodeP2WMCProgram inp.controlProgram with
    | none => rw [receiveOfR, hd] at h0; simp at h0
    | some x => simp
  obtain ⟨pay2, mx2, hip, hpay, hmxpos⟩ := inputPass_spec (recvMap outputs) inputs
    (outputPass outputs (fun _ => 0) []).1 (fun _ => 0) hok
  have hmx2 : ∀ a, 0 ≤ mx2 a := hmxpos (fun a => le_refl 0)
  have hrecvsum : ∀ a, recvSumI (recvMap outputs) inputs a = outSumNP outputs a := by
    intro a
    exact List.Perm.sum_eq (List.Perm.map _ (List.Perm.filter _ hperm))
  have hpayval : ∀ a, pay2 a = (inSumN inputs a : Int) - (outSumN outputs a : Int) := by
    intro a
    rw [hpay a, outputPass_pay, hrecvsum a]
    have hpart := outSum_partition outputs a
    rw [inSumI_eq inputs a hin63] at *
    rw [outSumI_eq outputs a hout63] at hpart
    omega
  set keys : List Nat := (inputs.map (·.assetID)).dedup with hkeys
  set keysF : List Nat := keys.filter (fun a => !(pay2 a == 0)) with hkeysF
  have hbounds : ∀ a ∈ keysF, 0 ≤ pay2 a ∧ pay2 a < 2 ^ 63 ∧ 0 ≤ mx2 a := by
    intro a ha
    have hak : a ∈ keys := List.mem_of_mem_filter ha
    have hain : a ∈ inputs.map (·.assetID) := List.mem_dedup.mp hak
    have h1 := hpos a hain
    have h2 : inSumN inputs a ≤ (inputs.map (·.amount)).sum := inSumN_le inputs a
    refine ⟨?_, ?_, hmx2 a⟩
    · rw [hpayval a]
      omega
    · rw [hpayval a]
      omega
  obtain ⟨chunks, hmapM, hchsum⟩ := feeChunks_spec nodeProgram inputs pay2 mx2
    hdec hne keysF hbounds
  have hip2 : inputPass ((outputPass outputs (fun _ => 0) []).2) inputs
      ((outputPass outputs (fun _ => 0) []).1) (fun _ => 0) = .ok (pay2, mx2) := hip
  refine ⟨⟨1, inputs, outputs ++ chunks.flatten, 0⟩, ?_, rfl, ?_⟩
  · unfold addMatchTxFeeOutput CalcFeeFromMatchedTx
    dsimp only
    rw [hip2]
    dsimp only
    rw [hmapM]
  · intro a
    rw [outSumN_append, hchsum a]
    have hnodupF : keysF.Nodup := (List.nodup_dedup _).filter _
    rw [filter_beq_of_nodup keysF hnodupF a]
    by_cases haF : a ∈ keysF
    · rw [if_pos haF]
      simp only [List.map_cons, List.map_nil, List.sum_cons, List.sum_nil]
      have h0 := (hbounds a haF).1
      have hv := hpayval a
      omega
    · rw [if_neg haF]
      simp only [List.map_nil, List.sum_nil]
      by_cases hain : a ∈ inputs.map (·.assetID)
      · have hak : a ∈ keys := List.mem_dedup.mpr hain
        have hz : pay2 a = 0 := by
          by_contra hnz
          exact haF (List.mem_filter.mpr ⟨hak, by simpa using hnz⟩)
        have hv := hpayval a
        omega
      · have h1 : inSumN inputs a = 0 := inSumN_eq_zero inputs a hain
        have h2 : outSumN outputs a = 0 :=
          outSumN_eq_zero outputs a (fun o ho he => hain (he ▸ hassets o ho))
        omega

/-- C1 (amended): a transaction built by `NextMatchedTx` conserves every
asset provided the computed payable fee of every asset is non-negative —
concretely: the legs decode, every input has a matching receive output and
the receive outputs are exactly the non-P2WMC outputs (`hok`/`hperm`), the
totals stay below `2 ^ 63`, per asset the leg outputs never exceed the
inputs (`hpos`, the non-negative-payable condition), and every output asset
occurs among the input assets.  Without `hpos` the `uint64` cast of a
negative payable fee breaks conservation (see the counterexample). -/
theorem matched_tx_conserves (e : Engine) (ps : List TradePair) (tx : TxData)
    (orders : List Order) (inputs : List TxInput) (outputs : List TxOutput)
    (hnext : (NextMatchedTx e ps).1 = .ok tx)
    (hpeek : peekOrders e.orderTable ps = some orders)
    (hlegs : buildLegs (orders.zip (orders.rotate 1)) 0 = .ok (inputs, outputs))
    (hne : inputs ≠ [])
    (hok : ∀ inp ∈ inputs, (receiveOfR (recvMap outputs) inp).isSome)
    (hperm : (inputs.filterMap (receiveOfR (recvMap outputs))).Perm
      (outputs.filter fun o => !IsP2WMCScript o.controlProgram))
    (htotIn : (inputs.map (·.amount)).sum < 2 ^ 63)
    (htotOut : (outputs.map (·.amount)).sum < 2 ^ 63)
    (hpos : ∀ a ∈ inputs.map (·.assetID), outSumN outputs a ≤ inSumN inputs a)
    (hassets : ∀ o ∈ outputs, o.assetID ∈ inputs.map (·.assetID)) :
    ∀ a, assetInSum tx a = assetOutSum tx a := by
  unfold NextMatchedTx at hnext
  split at hnext
  · exact absurd hnext (by simp)
  next u hv =>
    cases u
    split at hnext
    · exact absurd hnext (by simp)
    next os hp =>
      rw [hpeek] at hp
      cases hp
      split at hnext
      · exact absurd hnext (by simp)
      next hemp =>
        split at hnext
        · exact absurd hnext (by simp)
        next tx0 hb =>
          dsimp only at hnext
          split at hnext
          · exact absurd hnext (by simp)
          next u2 t2 hap =>
            have htx0 : tx0 = tx := by simpa using hnext
            subst htx0
            unfold buildMatchTx at hb
            rw [hlegs] at hb
            dsimp only at hb
            obtain ⟨tx', hfee', htxin, hcons⟩ := addMatchTxFeeOutput_conserves
              e.nodeProgram inputs outputs hok hperm hne htotIn htotOut hpos hassets
            rw [hfee'] at hb
            dsimp only at hb
            obtain rfl := (Except.ok.inj hb).symm
            intro a
            show inSumN tx'.inputs a = outSumN tx'.outputs a
            rw [htxin]
            exact hcons a

def inputsW1 : List TxInput :=
  [⟨0, 100000000, 100, 0, progA, [0, 1]⟩, ⟨1, 200000000, 200, 1, progB, [1, 1]⟩]

def outputsW1 : List TxOutput :=
  [⟨1, 200000000, .raw 10⟩, ⟨0, 100000000, .raw 11⟩]

/-- The transaction `NextMatchedTx` builds from the clean fixture
`engineW1`: two full trades and no fee outputs. -/
def txW1 : TxData := ⟨1, inputsW1, outputsW1, 5⟩

/-- C1 witness: the clean two-leg fixture satisfies every hypothesis and
the built transaction conserves both of its assets. -/
theorem matched_tx_conserves_witness :
    assetInSum txW1 0 = assetOutSum txW1 0 ∧ assetInSum txW1 1 = assetOutSum txW1 1 := by
  have h := matched_tx_conserves engineW1 ring01 txW1 [orderA, orderB] inputsW1 outputsW1
    (by rfl) (by decide) (by rfl) (by decide) (by decide) (by decide)
    (by decide) (by decide) (by decide) (by decide)
  exact ⟨h 0, h 1⟩

/-! ## The default fee allocation (C10) -/

/-- Sum of the amounts of one asset in a list of asset amounts. -/
def amountSum (a : Nat) (l : List AssetAmount) : Nat :=
  ((l.filter fun x => x.assetID == a).map (·.amount)).sum

theorem amountSum_cons (x : AssetAmount) (rest : List AssetAmount) (a : Nat) :
    amountSum a (x :: rest) = (if x.assetID = a then x.amount else 0) + amountSum a rest := by
  unfold amountSum
  rw [List.filter_cons]
  by_cases h : x.assetID = a
  · rw [if_pos (by simpa using h), if_pos h, List.map_cons, List.sum_cons]
  · rw [if_neg (by simpa using h), if_neg h]
    omega

theorem skim_spec (a : Nat) : ∀ (pds : List AssetAmount),
    (∀ pd ∈ pds, pd.amount < 2 ^ 64) → amountSum a pds < 2 ^ 64 →
    (DefaultFeeStrategy.skim a pds).2 ≤ amountSum a pds ∧
      (∀ pd ∈ (DefaultFeeStrategy.skim a pds).1, pd.amount < 2 ^ 64) ∧
      (∀ b, amountSum b (DefaultFeeStrategy.skim a pds).1 +
        (if b = a then (DefaultFeeStrategy.skim a pds).2 else 0) = amountSum b pds) := by
  intro pds
  induction pds with
  | nil =>
    intro _ _
    refine ⟨le_refl 0, by simp [DefaultFeeStrategy.skim], fun b => ?_⟩
    by_cases hb : b = a <;> simp [DefaultFeeStrategy.skim, amountSum, hb]
  | cons pd rest ih =>
    intro hlt hsum
    have hsr : amountSum a rest < 2 ^ 64 := by
      rw [amountSum_cons] at hsum
      omega
    obtain ⟨ihtot, ihlt, ihsum⟩ := ih (fun x hx => hlt x (by simp [hx])) hsr
    have hpd64 := hlt pd (by simp)
    have hstep : DefaultFeeStrategy.skim a (pd :: rest) =
        if pd.assetID = a then
          (⟨pd.assetID, u64sub pd.amount (DefaultFeeStrategy.calcFeeAmount pd.amount false)⟩ ::
              (DefaultFeeStrategy.skim a rest).1,
            u64add (DefaultFeeStrategy.calcFeeAmount pd.amount false)
              (DefaultFeeStrategy.skim a rest).2)
        else (pd :: (DefaultFeeStrategy.skim a rest).1, (DefaultFeeStrategy.skim a rest).2) :=
      rfl
    by_cases hpd : pd.assetID = a
    · rw [hstep, if_pos hpd]
      have hfee : DefaultFeeStrategy.calcFeeAmount pd.amount false ≤ pd.amount :=
        calcFeeAmount_le pd.amount false hpd64

      have hsub : u64sub pd.amount (DefaultFeeStrategy.calcFeeAmount pd.amount false) =
          pd.amount - DefaultFeeStrategy.calcFeeAmount pd.amount false :=
        u64sub_exact _ _ hfee hpd64
      have hAcons := amountSum_cons pd rest a
      have hadd : u64add (DefaultFeeStrategy.calcFeeAmount pd.amount false)
          (DefaultFeeStrategy.skim a rest).2 =
          DefaultFeeStrategy.calcFeeAmount pd.amount false +
            (DefaultFeeStrategy.skim a rest).2 := by
        apply u64add_exact
        rw [hAcons, if_pos hpd] at hsum
        omega
      refine ⟨?_, ?_, ?_⟩
      · dsimp only
        rw [hadd, hAcons, if_pos hpd]
        omega
      · intro x hx
        rcases List.mem_cons.mp hx with he | hm
        · subst he
          dsimp only
          rw [hsub]
          omega
        · exact ihlt x hm
      · intro b
        dsimp only
        rw [amountSum_cons, amountSum_cons, hadd]
        dsimp only
        by_cases hb : b = a
        · rw [if_pos (by rw [hpd, hb]), if_pos hb, if_pos (by rw [hpd, hb])]
          have := ihsum b
          rw [if_pos hb] at this
          rw [hsub]
          omega
        · rw [if_neg (fun h => hb (by rw [← hpd, h])), if_neg hb,
            if_neg (fun h => hb (by rw [← hpd, h]))]
          have := ihsum b
          rw [if_neg hb] at this
          omega
    · rw [hstep, if_neg hpd]
      refine ⟨?_, ?_, ?_⟩
      · dsimp only
        rw [amountSum_cons, if_neg hpd]
        omega
      · intro x hx
        rcases List.mem_cons.mp hx with he | hm
        · subst he
          exact hpd64
        · exact ihlt x hm
      · intro b
        dsimp only
        rw [amountSum_cons, amountSum_cons]
        by_cases hb : b = a
        · have := ihsum b
          rw [if_pos hb] at this ⊢
          omega
        · have := ihsum b
          rw [if_neg hb] at this ⊢
          omega

theorem allocateLoop_receives : ∀ (legs : List (AssetAmount × Bool)) (pds : List AssetAmount),
    (DefaultFeeStrategy.allocateLoop legs pds).1.1 = legs.map fun lg =>
      ⟨lg.1.assetID, u64sub lg.1.amount (DefaultFeeStrategy.calcFeeAmount lg.1.amount lg.2)⟩ := by
  intro legs
  induction legs with
  | nil => intro pds; rfl
  | cons lg rest ih =>
    intro pds
    rcases lg with ⟨ra, mk⟩
    simp only [DefaultFeeStrategy.allocateLoop]
    rw [ih, List.map_cons]

theorem allocateLoop_conserve : ∀ (legs : List (AssetAmount × Bool)) (pds : List AssetAmount),
    (∀ lg ∈ legs, lg.1.amount < 2 ^ 64) →
    (∀ pd ∈ pds, pd.amount < 2 ^ 64) →
    (∀ lg ∈ legs, ∀ b, lg.1.amount + amountSum b pds < 2 ^ 64) →
    ∀ b, amountSum b (DefaultFeeStrategy.allocateLoop legs pds).1.1 +
        amountSum b (DefaultFeeStrategy.allocateLoop legs pds).1.2 +
        amountSum b (DefaultFeeStrategy.allocateLoop legs pds).2 =
      amountSum b (legs.map (·.1)) + amountSum b pds := by
  intro legs
  induction legs with
  | nil =>
    intro pds _ _ _ b
    show amountSum b [] + amountSum b [] + amountSum b pds = amountSum b [] + amountSum b pds
    rfl
  | cons lg rest ih =>
    intro pds hlt hpd hmix b
    rcases lg with ⟨ra, mk⟩
    have hra64 : ra.amount < 2 ^ 64 := hlt (ra, mk) (by simp)
    have hfee : DefaultFeeStrategy.calcFeeAmount ra.amount mk ≤ ra.amount :=
      calcFeeAmount_le ra.amount mk hra64
    cases mk
    case true =>
      have hstep : DefaultFeeStrategy.allocateLoop ((ra, true) :: rest) pds =
          ((⟨ra.assetID, u64sub ra.amount (DefaultFeeStrategy.calcFeeAmount ra.amount true)⟩ ::
              (DefaultFeeStrategy.allocateLoop rest pds).1.1,
            ⟨ra.assetID, u64add (DefaultFeeStrategy.calcFeeAmount ra.amount true) 0⟩ ::
              (DefaultFeeStrategy.allocateLoop rest pds).1.2),
            (DefaultFeeStrategy.allocateLoop rest pds).2) := rfl
      rw [hstep]
      rw [amountSum_cons, amountSum_cons]
      dsimp only
      have hih := ih pds (fun x hx => hlt x (by simp [hx])) hpd
        (fun x hx => hmix x (by simp [hx])) b
      rw [List.map_cons, amountSum_cons]
      have hsub : u64sub ra.amount (DefaultFeeStrategy.calcFeeAmount ra.amount true) =
          ra.amount - DefaultFeeStrategy.calcFeeAmount ra.amount true :=
        u64sub_exact _ _ hfee hra64
      have hadd : u64add (DefaultFeeStrategy.calcFeeAmount ra.amount true) 0 =
          DefaultFeeStrategy.calcFeeAmount ra.amount true :=
        u64add_exact _ _ (by omega)
      rw [hsub, hadd]
      by_cases hb : ra.assetID = b
      · rw [if_pos hb, if_pos hb, if_pos hb]
        dsimp only
        omega
      · rw [if_neg hb, if_neg hb, if_neg hb]
        omega
    case false =>
      have hsumlt : amountSum ra.assetID pds < 2 ^ 64 := by
        have := hmix (ra, false) (by simp) ra.assetID
        omega
      obtain ⟨hskimtot, hskimlt, hskimsum⟩ := skim_spec ra.assetID pds hpd hsumlt
      have hstep : DefaultFeeStrategy.allocateLoop ((ra, false) :: rest) pds =
          ((⟨ra.assetID, u64sub ra.amount (DefaultFeeStrategy.calcFeeAmount ra.amount false)⟩ ::
              (DefaultFeeStrategy.allocateLoop rest
                (DefaultFeeStrategy.skim ra.assetID pds).1).1.1,
            ⟨ra.assetID, u64add (DefaultFeeStrategy.calcFeeAmount ra.amount false)
                (DefaultFeeStrategy.skim ra.assetID pds).2⟩ ::
              (DefaultFeeStrategy.allocateLoop rest
                (DefaultFeeStrategy.skim ra.assetID pds).1).1.2),
            (DefaultFeeStrategy.allocateLoop rest
              (DefaultFeeStrategy.skim ra.assetID pds).1).2) := rfl
      rw [hstep]
      rw [amountSum_cons, amountSum_cons]
      dsimp only
      have hmix2 : ∀ lg ∈ rest, ∀ c,
          lg.1.amount + amountSum c (DefaultFeeStrategy.skim ra.assetID pds).1 < 2 ^ 64 := by
        intro x hx c
        have h1 := hskimsum c
        have h2 := hmix x (by simp [hx]) c
        by_cases hc : c = ra.assetID
        · rw [if_pos hc] at h1
          omega
        · rw [if_neg hc] at h1
          omega
      have hih := ih (DefaultFeeStrategy.skim ra.assetID pds).1
        (fun x hx => hlt x (by simp [hx])) hskimlt hmix2 b
      rw [List.map_cons, amountSum_cons]
      have hsub : u64sub ra.amount (DefaultFeeStrategy.calcFeeAmount ra.amount false) =
          ra.amount - DefaultFeeStrategy.calcFeeAmount ra.amount false :=
        u64sub_exact _ _ hfee hra64
      have hadd : u64add (DefaultFeeStrategy.calcFeeAmount ra.amount false)
          (DefaultFeeStrategy.skim ra.assetID pds).2 =
          DefaultFeeStrategy.calcFeeAmount ra.amount false +
            (DefaultFeeStrategy.skim ra.assetID pds).2 := by
        apply u64add_exact
        have := hmix (ra, false) (by simp) ra.assetID
        dsimp only at this
        omega
      rw [hsub, hadd]
      have h1 := hskimsum b
      by_cases hb : ra.assetID = b
      · rw [if_pos hb, if_pos hb, if_pos hb]
        rw [if_pos hb.symm] at h1
        dsimp only
        omega
      · rw [if_neg hb, if_neg hb, if_neg hb]
        rw [if_neg (fun h => hb h.symm)] at h1
        omega

/-- C10: `Allocate` over equal-length receive and maker lists (with all
amounts, and each receive amount plus any per-asset price-differential
total, below `2 ^ 64`, so that no `uint64` wrap occurs): each leg's receive
entry is the original amount minus that leg's base fee (so the two sum back
to the original); the maker fee is zero, so a maker leg receives its full
amount; and per asset the receives, fees and final price differentials
together total exactly the original receive amounts plus the original price
differentials. -/
theorem allocate_spec (ras pds : List AssetAmount) (mks : List Bool)
    (hlen : ras.length = mks.length)
    (hra : ∀ ra ∈ ras, ra.amount < 2 ^ 64)
    (hpd : ∀ pd ∈ pds, pd.amount < 2 ^ 64)
    (hmix : ∀ ra ∈ ras, ∀ b, ra.amount + amountSum b pds < 2 ^ 64) :
    ((DefaultFeeStrategy.Allocate ras pds mks).1.1 = (ras.zip mks).map fun lg =>
        ⟨lg.1.assetID, lg.1.amount - DefaultFeeStrategy.calcFeeAmount lg.1.amount lg.2⟩) ∧
      (∀ a, DefaultFeeStrategy.calcFeeAmount a true = 0) ∧
      (∀ (i : Nat) (ra : AssetAmount) (mk : Bool), ras[i]? = some ra → mks[i]? = some mk →
        ((DefaultFeeStrategy.Allocate ras pds mks).1.1)[i]? =
          some ⟨ra.assetID, ra.amount - DefaultFeeStrategy.calcFeeAmount ra.amount mk⟩ ∧
        (ra.amount - DefaultFeeStrategy.calcFeeAmount ra.amount mk) +
          DefaultFeeStrategy.calcFeeAmount ra.amount mk = ra.amount) ∧
      (∀ b, amountSum b (DefaultFeeStrategy.Allocate ras pds mks).1.1 +
          amountSum b (DefaultFeeStrategy.Allocate ras pds mks).1.2 +
          amountSum b (DefaultFeeStrategy.Allocate ras pds mks).2 =
        amountSum b ras + amountSum b pds) := by
  have hreceq : (DefaultFeeStrategy.Allocate ras pds mks).1.1 = (ras.zip mks).map fun lg =>
      ⟨lg.1.assetID, lg.1.amount - DefaultFeeStrategy.calcFeeAmount lg.1.amount lg.2⟩ := by
    rw [show (DefaultFeeStrategy.Allocate ras pds mks).1.1 =
      (DefaultFeeStrategy.allocateLoop (ras.zip mks) pds).1.1 from rfl]
    rw [allocateLoop_receives]
    apply List.map_congr_left
    intro lg hlg
    have hmem : lg.1 ∈ ras := (List.mem_zip hlg).1
    have h64 : lg.1.amount < 2 ^ 64 := hra _ hmem
    have hfee : DefaultFeeStrategy.calcFeeAmount lg.1.amount lg.2 ≤ lg.1.amount :=
      calcFeeAmount_le _ _ h64
    rw [u64sub_exact _ _ hfee h64]
  refine ⟨hreceq, calcFeeAmount_maker, ?_, ?_⟩
  · intro i ra mk hri hmi
    have hz : (ras.zip mks)[i]? = some (ra, mk) :=
      List.getElem?_zip_eq_some.mpr ⟨hri, hmi⟩
    have hmem : ra ∈ ras := List.getElem?_mem hri
    have h64 : ra.amount < 2 ^ 64 := hra _ hmem
    have hfee : DefaultFeeStrategy.calcFeeAmount ra.amount mk ≤ ra.amount :=
      calcFeeAmount_le _ _ h64
    constructor
    · rw [hreceq, List.getElem?_map, hz]
      rfl
    · omega
  · intro b
    have hleg : ∀ lg ∈ ras.zip mks, lg.1.amount < 2 ^ 64 :=
      fun lg hlg => hra _ (List.mem_zip hlg).1
    have hmix2 : ∀ lg ∈ ras.zip mks, ∀ c, lg.1.amount + amountSum c pds < 2 ^ 64 :=
      fun lg hlg => hmix _ (List.mem_zip hlg).1
    have h := allocateLoop_conserve (ras.zip mks) pds hleg hpd hmix2 b
    have hfst : (ras.zip mks).map (·.1) = ras :=
      List.map_fst_zip ras mks (le_of_eq hlen)
    rw [hfst] at h
    exact h

/-- C10 witness: two legs (a maker and a taker) with one price differential
on the taker's asset. -/
theorem allocate_spec_witness :
    ((DefaultFeeStrategy.Allocate [⟨1, 10000⟩, ⟨2, 10000⟩] [⟨2, 10000⟩]
        [true, false]).1.1 =
      ([(⟨1, 10000⟩ : AssetAmount), ⟨2, 10000⟩].zip [true, false]).map fun lg =>
        ⟨lg.1.assetID, lg.1.amount - DefaultFeeStrategy.calcFeeAmount lg.1.amount lg.2⟩) ∧
      (∀ a, DefaultFeeStrategy.calcFeeAmount a true = 0) ∧
      (∀ (i : Nat) (ra : AssetAmount) (mk : Bool),
        [(⟨1, 10000⟩ : AssetAmount), ⟨2, 10000⟩][i]? = some ra →
        [true, false][i]? = some mk →
        ((DefaultFeeStrategy.Allocate [⟨1, 10000⟩, ⟨2, 10000⟩] [⟨2, 10000⟩]
            [true, false]).1.1)[i]? =
          some ⟨ra.assetID, ra.amount - DefaultFeeStrategy.calcFeeAmount ra.amount mk⟩ ∧
        (ra.amount - DefaultFeeStrategy.calcFeeAmount ra.amount mk) +
          DefaultFeeStrategy.calcFeeAmount ra.amount mk = ra.amount) ∧
      (∀ b, amountSum b (DefaultFeeStrategy.Allocate [⟨1, 10000⟩, ⟨2, 10000⟩]
            [⟨2, 10000⟩] [true, false]).1.1 +
          amountSum b (DefaultFeeStrategy.Allocate [⟨1, 10000⟩, ⟨2, 10000⟩]
            [⟨2, 10000⟩] [true, false]).1.2 +
          amountSum b (DefaultFeeStrategy.Allocate [⟨1, 10000⟩, ⟨2, 10000⟩]
            [⟨2, 10000⟩] [true, false]).2 =
        amountSum b [⟨1, 10000⟩, ⟨2, 10000⟩] + amountSum b [⟨2, 10000⟩]) :=
  allocate_spec [⟨1, 10000⟩, ⟨2, 10000⟩] [⟨2, 10000⟩] [true, false]
    (by decide) (by decide) (by decide)
    (by
      intro ra hmem b
      have ham : ra.amount = 10000 := by
        rcases List.mem_cons.mp hmem with h | h
        · rw [h]
        · rcases List.mem_cons.mp h with h2 | h2
          · rw [h2]
          · simp at h2
      have hs : amountSum b [(⟨2, 10000⟩ : AssetAmount)] ≤ 10000 := by
        rw [amountSum_cons, show amountSum b [] = 0 from rfl]
        by_cases hb : (⟨2, 10000⟩ : AssetAmount).assetID = b
        · rw [if_pos hb]
        · rw [if_neg hb]
          omega
      omega)

end Vapor
